import Mathlib

/-!
Verification of the Draw2Diagram canvas interaction and geometry engine.

The TypeScript source is embedded shallowly:
- JS `number` is idealised as `ℚ` (exact rational arithmetic; the claims we
  settle never depend on float rounding, and the one spec claim about
  floating point explicitly allows tolerance, which exact equality meets).
- `Math.sqrt` / `Math.hypot` are external real-valued primitives; functions of
  the source that call them take an explicit parameter `sq : ℚ → ℚ` standing
  for `Math.sqrt`.  Theorems that need the defining property of the square
  root assume it pointwise (`sq v * sq v = v ∧ 0 ≤ sq v`) and witnesses
  instantiate `sq` with `ratSqrt`, which is exact on perfect squares.
- `ctx.measureText` (DOM text measurement) is an external primitive, passed
  as a parameter `tm : ℚ → String → ℚ` (font size → text → advance width).
- SVG path data strings are `List Char`.
-/

namespace Draw2Diagram

/-- A plane point, `{x, y}` from `types.ts`. -/
structure Pt where
  x : ℚ
  y : ℚ
deriving DecidableEq

/-- `ElementStyle` from `types.ts`. -/
structure ElementStyle where
  strokeColor : String
  fillColor : String
  strokeWidth : ℚ
  fontSize : Option ℚ
deriving DecidableEq

/-- An axis-aligned box, the `Bounds` record of `Canvas.tsx` /
`PathElement.bounds` / `RasterElement.bounds`. -/
structure Bounds where
  minX : ℚ
  minY : ℚ
  maxX : ℚ
  maxY : ℚ
deriving DecidableEq

/-- The per-variant payload of the `Element` tagged union of `types.ts`. -/
inductive ElementKind where
  | pen (points : List Pt)
  | line (points : List Pt) (startElementId endElementId : Option ℤ)
  | rectangle (points : List Pt)
  | circle (points : List Pt)
  | path (points : List Pt) (pathData : List Char) (bounds : Bounds)
  | text (points : List Pt) (text : String)
  | raster (imageUrl : String) (bounds : Bounds) (sourceStrokeColor : String)
deriving DecidableEq

/-- An element: the shared `BaseElement` fields plus the variant payload. -/
structure Element where
  id : ℤ
  style : ElementStyle
  isMap : Option Bool
  kind : ElementKind
deriving DecidableEq

/-- The `points` array of an element (`'points' in element` is true for every
variant except `raster`; for `raster` there is no such field and we return
`[]`, matching the code paths that guard on `'points' in element`). -/
def Element.points (el : Element) : List Pt :=
  match el.kind with
  | .pen ps => ps
  | .line ps _ _ => ps
  | .rectangle ps => ps
  | .circle ps => ps
  | .path ps _ _ => ps
  | .text ps _ => ps
  | .raster _ _ _ => []

def Element.isRaster (el : Element) : Bool :=
  match el.kind with
  | .raster _ _ _ => true
  | _ => false

def Element.isCircle (el : Element) : Bool :=
  match el.kind with
  | .circle _ => true
  | _ => false

/-- A concrete stand-in for `Math.sqrt`, used to instantiate witnesses:
exact (and checked so by the witness hypotheses) on the radicands that occur
in them. -/
def ratSqrt (q : ℚ) : ℚ :=
  if q = 0 then 0
  else if q = 100 then 10
  else if q = 10000 then 100
  else 0

/-- JS truthiness of the `element.style.fontSize || 24` idiom: `0` (and a
missing field) select the default `24`. -/
def fontSizeOrDefault (fs : Option ℚ) : ℚ :=
  match fs with
  | none => 24
  | some f => if f = 0 then 24 else f

/-- Fold of `Math.min`/`Math.max` over a point list, mirroring the
`element.points.forEach` accumulation in `getRawElementBounds` (the list is
non-empty on every reachable call, so the `Infinity` seed is never returned;
we fold from the first point). -/
def pointsBounds : List Pt → Bounds
  | [] => ⟨0, 0, 0, 0⟩
  | p :: ps =>
      ps.foldl
        (fun b q =>
          ⟨min b.minX q.x, min b.minY q.y, max b.maxX q.x, max b.maxY q.y⟩)
        ⟨p.x, p.y, p.x, p.y⟩

/-- `getRawElementBounds` from `utils/geometry.ts`.  `sq` models `Math.sqrt`,
`tm` models the canvas `measureText` facility (font size, text ↦ width). -/
def getRawElementBounds (sq : ℚ → ℚ) (tm : ℚ → String → ℚ) (el : Element) :
    Bounds :=
  match el.kind with
  | .path _ _ bounds => bounds
  | .raster _ bounds _ => bounds
  | .circle (center :: edge :: _) =>
      let radius := sq ((edge.x - center.x) ^ 2 + (edge.y - center.y) ^ 2)
      ⟨center.x - radius, center.y - radius, center.x + radius,
        center.y + radius⟩
  | .text (p :: _) txt =>
      if txt ≠ "" then
        let fontSize := fontSizeOrDefault el.style.fontSize
        ⟨p.x, p.y, p.x + tm fontSize txt, p.y + fontSize⟩
      else pointsBounds el.points
  | _ =>
      if el.points.isEmpty then ⟨0, 0, 0, 0⟩ else pointsBounds el.points

/-- `getElementCenter` from `utils/geometry.ts`. -/
def getElementCenter (sq : ℚ → ℚ) (tm : ℚ → String → ℚ) (el : Element) : Pt :=
  let bounds := getRawElementBounds sq tm el
  ⟨(bounds.minX + bounds.maxX) / 2, (bounds.minY + bounds.maxY) / 2⟩

/-- `getElementBounds` (padded for hit-testing) from `utils/geometry.ts`. -/
def getElementBounds (sq : ℚ → ℚ) (tm : ℚ → String → ℚ) (el : Element) :
    Bounds :=
  let padding := el.style.strokeWidth / 2 + 5
  let bounds := getRawElementBounds sq tm el
  ⟨bounds.minX - padding, bounds.minY - padding, bounds.maxX + padding,
    bounds.maxY + padding⟩

/-- `getElementsBounds` (collective raw box) from `utils/geometry.ts`. -/
def getElementsBounds (sq : ℚ → ℚ) (tm : ℚ → String → ℚ)
    (elements : List Element) : Bounds :=
  match elements with
  | [] => ⟨0, 0, 0, 0⟩
  | el :: rest =>
      rest.foldl
        (fun b e =>
          let bd := getRawElementBounds sq tm e
          ⟨min b.minX bd.minX, min b.minY bd.minY, max b.maxX bd.maxX,
            max b.maxY bd.maxY⟩)
        (getRawElementBounds sq tm el)

/-- `getAttachmentPoint` from `utils/geometry.ts`. -/
def getAttachmentPoint (sq : ℚ → ℚ) (tm : ℚ → String → ℚ) (el : Element)
    (targetPoint : Pt) : Pt :=
  let bounds := getRawElementBounds sq tm el
  let center := getElementCenter sq tm el
  if el.isCircle then
    let radius := (bounds.maxX - bounds.minX) / 2
    let dx := targetPoint.x - center.x
    let dy := targetPoint.y - center.y
    let dist := sq (dx ^ 2 + dy ^ 2)
    if dist = 0 then ⟨center.x + radius, center.y⟩
    else ⟨center.x + dx / dist * radius, center.y + dy / dist * radius⟩
  else
    let dx := targetPoint.x - center.x
    let dy := targetPoint.y - center.y
    let w := (bounds.maxX - bounds.minX) / 2
    let h := (bounds.maxY - bounds.minY) / 2
    if dx = 0 ∧ dy = 0 then ⟨center.x + w, center.y⟩
    else if w = 0 ∨ h = 0 then center
    else
      let slope := dy / dx
      let hSlope := h / w
      if |slope| < hSlope then
        let x := if dx > 0 then center.x + w else center.x - w
        ⟨x, center.y + (x - center.x) * slope⟩
      else
        let y := if dy > 0 then center.y + h else center.y - h
        ⟨center.x + (y - center.y) / slope, y⟩

/-- `isPointNearLine` from `Canvas.tsx`: point-to-segment distance test with
an early exit for a zero-length segment. -/
def isPointNearLine (sq : ℚ → ℚ) (p1 p2 point : Pt) (threshold : ℚ) : Bool :=
  let dx := p2.x - p1.x
  let dy := p2.y - p1.y
  if dx = 0 ∧ dy = 0 then false
  else
    let t := ((point.x - p1.x) * dx + (point.y - p1.y) * dy) /
      (dx * dx + dy * dy)
    let closestT := max 0 (min 1 t)
    let closest : Pt := ⟨p1.x + closestT * dx, p1.y + closestT * dy⟩
    let dist := sq ((closest.x - point.x) ^ 2 + (closest.y - point.y) ^ 2)
    decide (dist < threshold)

/-! ### Path-data strings: the tokenizer implicit in `transformPathData`

`transformPathData` in `utils/geometry.ts` rewrites a path string with
`pathData.replace(/([A-Za-z])([^A-Za-z]*)/g, ...)` and extracts numbers per
segment with `argsStr.trim().match(-?\d*\.?\d+)`.  We embed both regexes
directly on `List Char`: the command regex splits the string at letters (the
part before the first letter is left verbatim), and the number regex is a
longest-match scan of the pattern sign? digits* dot? digits+. -/

def isUpperCh (c : Char) : Bool := 'A' ≤ c && c ≤ 'Z'

def isLowerCh (c : Char) : Bool := 'a' ≤ c && c ≤ 'z'

def isAlphaCh (c : Char) : Bool := isUpperCh c || isLowerCh c

def notAlpha (c : Char) : Bool := !isAlphaCh c

def isDigitCh (c : Char) : Bool := '0' ≤ c && c ≤ '9'

def isWsCh (c : Char) : Bool := c = ' ' || c = '\t' || c = '\n' || c = '\r'

/-- `command.toUpperCase()` restricted to ASCII. -/
def toUpperCh (c : Char) : Char :=
  if isLowerCh c then Char.ofNat (c.toNat - 32) else c

def countDigits (s : List Char) : ℕ := (s.takeWhile isDigitCh).length

/-- Length of the longest match of `\d*\.?\d+` at the head of `s`
(`none` when there is no match). -/
def numPartLen (s : List Char) : Option ℕ :=
  let d1 := countDigits s
  let rest := s.drop d1
  if rest.head? = some '.' then
    let d2 := countDigits rest.tail
    if 0 < d2 then some (d1 + 1 + d2)
    else if 0 < d1 then some d1 else none
  else if 0 < d1 then some d1 else none

/-- Length of the longest match of `-?\d*\.?\d+` at the head of `s`. -/
def numTokenLen (s : List Char) : Option ℕ :=
  if s.head? = some '-' then (numPartLen s.tail).map (· + 1)
  else numPartLen s

theorem numPartLen_pos {s : List Char} {n : ℕ} (h : numPartLen s = some n) :
    0 < n := by
  unfold numPartLen at h
  dsimp only at h
  split_ifs at h with h1 h2 h3 h4 <;> simp_all <;> omega

theorem numTokenLen_pos {s : List Char} {n : ℕ} (h : numTokenLen s = some n) :
    0 < n := by
  unfold numTokenLen at h
  split_ifs at h with h1
  · rcases Option.map_eq_some'.mp h with ⟨m, _, rfl⟩
    omega
  · exact numPartLen_pos h

/-- The global scan of `-?\d*\.?\d+`: the list of number tokens found
left to right, longest match first, skipping a character when no match
starts there. -/
def scanTokens : List Char → List (List Char)
  | [] => []
  | c :: rest =>
      match h : numTokenLen (c :: rest) with
      | some n => (c :: rest).take n :: scanTokens ((c :: rest).drop n)
      | none => scanTokens rest
termination_by s => s.length
decreasing_by
  · have := numTokenLen_pos h
    simp
    omega
  · simp

def digitVal (c : Char) : ℕ := c.toNat - '0'.toNat

def digitsVal (s : List Char) : ℕ :=
  s.foldl (fun acc c => 10 * acc + digitVal c) 0

/-- JS `Number` on an unsigned decimal token. -/
def parseUnsigned (t : List Char) : ℚ :=
  let d1 := t.takeWhile isDigitCh
  match t.drop d1.length with
  | '.' :: frac =>
      let fd := frac.takeWhile isDigitCh
      (digitsVal d1 : ℚ) + (digitsVal fd : ℚ) / 10 ^ fd.length
  | _ => (digitsVal d1 : ℚ)

/-- JS `Number` on a token matched by the number regex. -/
def parseNum (t : List Char) : ℚ :=
  match t with
  | '-' :: rest => - parseUnsigned rest
  | _ => parseUnsigned t

/-- All numbers encoded in a character list, in order (the semantics of
`str.match(-?\d*\.?\d+)?.map(Number) || []`). -/
def scanNums (s : List Char) : List ℚ := (scanTokens s).map parseNum

/-- JS `String.prototype.trim` (on the whitespace characters that occur in
path data). -/
def trimWs (s : List Char) : List Char :=
  ((s.dropWhile isWsCh).reverse.dropWhile isWsCh).reverse

/-! ### Serializing numbers back to text

JS serializes a finite float with its shortest decimal representation.  We
mirror that for rationals with terminating decimal expansion (the only values
the transform ever produces from parsed input); `undefined` array slots
serialize to the empty string under `Array.prototype.join`, and `NaN` to
`"NaN"`. -/

/-- Multiplicity of `p` in `n` (0 when `p < 2` or `n = 0`). -/
def factorCount (p : ℕ) : ℕ → ℕ
  | n =>
      if h : 2 ≤ p ∧ p ∣ n ∧ n ≠ 0 then factorCount p (n / p) + 1 else 0
termination_by n => n
decreasing_by
  exact Nat.div_lt_self (Nat.pos_of_ne_zero h.2.2) h.1

/-- The least `k` with `d ∣ 10 ^ k`, for `d` of the form `2^a * 5^b`. -/
def decExp (d : ℕ) : ℕ := max (factorCount 2 d) (factorCount 5 d)

/-- Decimal digits of a natural number, most significant first. -/
def natDigits : ℕ → List Char
  | n =>
      if h : n < 10 then [Char.ofNat ('0'.toNat + n)]
      else natDigits (n / 10) ++ [Char.ofNat ('0'.toNat + n % 10)]
termination_by n => n
decreasing_by
  exact Nat.div_lt_self (by omega) (by omega)

def padZeros (k : ℕ) (s : List Char) : List Char :=
  List.replicate (k - s.length) '0' ++ s

/-- Shortest decimal string of a non-negative rational with terminating
decimal expansion. -/
def decStrNN (q : ℚ) : List Char :=
  let k := decExp q.den
  let m := q.num.toNat * 10 ^ k / q.den
  if k = 0 then natDigits m
  else natDigits (m / 10 ^ k) ++ '.' :: padZeros k (natDigits (m % 10 ^ k))

/-- Shortest decimal string of a rational with terminating decimal
expansion (the idealisation of JS number-to-string). -/
def decStr (q : ℚ) : List Char :=
  if q < 0 then '-' :: decStrNN (-q) else decStrNN q

/-- A JS numeric array slot: a number, `NaN`, or `undefined` (a hole left by
reading past the end of the argument array). -/
inductive JNum where
  | num (q : ℚ)
  | nan
  | undef
deriving DecidableEq

def serJNum : JNum → List Char
  | .num q => decStr q
  | .nan => ['N', 'a', 'N']
  | .undef => []

/-- `Array.prototype.join(' ')` over serialized slots. -/
def jjoin : List JNum → List Char
  | [] => []
  | [a] => serJNum a
  | a :: b :: rest => serJNum a ++ ' ' :: jjoin (b :: rest)

/-- `args[i]`: a number in range, `undefined` past the end. -/
def jget (args : List ℚ) (i : ℕ) : JNum :=
  match args.get? i with
  | none => .undef
  | some q => .num q

/-- `x * s + t` with JS coercions: `undefined * s` is `NaN`, and `NaN`
propagates. -/
def jscale (x : JNum) (s t : ℚ) : JNum :=
  match x with
  | .num q => .num (q * s + t)
  | _ => .nan

/-- `x * Math.abs(s)` with JS coercions. -/
def jmulAbs (x : JNum) (s : ℚ) : JNum :=
  match x with
  | .num q => .num (q * |s|)
  | _ => .nan

/-- The `default` branch of the `switch`: coordinates consumed as `(x, y)`
pairs (`for i += 2`); an odd trailing argument pairs with `undefined`,
producing `NaN` for `y`. -/
def defaultPairs (sx sy tx ty : ℚ) : List ℚ → List JNum
  | [] => []
  | [x] => [.num (x * sx + tx), .nan]
  | x :: y :: rest =>
      .num (x * sx + tx) :: .num (y * sy + ty) ::
        defaultPairs sx sy tx ty rest

/-- The `'A'` branch: groups of 7 (`rx ry rot large sweep x y`, `for i += 7`);
radii scale by the absolute factors, rotation and flags pass through raw,
the terminal point scales and translates.  Missing slots are `undefined`. -/
def arcGroups (sx sy tx ty : ℚ) : List ℚ → List JNum
  | [] => []
  | x :: rest =>
      let l := x :: rest
      jmulAbs (jget l 0) sx :: jmulAbs (jget l 1) sy :: jget l 2 ::
        jget l 3 :: jget l 4 :: jscale (jget l 5) sx tx ::
        jscale (jget l 6) sy ty :: arcGroups sx sy tx ty (rest.drop 6)
termination_by l => l.length
decreasing_by
  simp
  omega

/-- The `newArgs` array computed by the `switch` for a non-`Z` command with
parsed arguments `args` (relative commands drop the translation). -/
def segNewArgs (command : Char) (args : List ℚ) (sx sy tx ty : ℚ) :
    List JNum :=
  let isRelative := isLowerCh command
  let trX := if isRelative then 0 else tx
  let trY := if isRelative then 0 else ty
  match toUpperCh command with
  | 'H' => args.map (fun x => JNum.num (x * sx + trX))
  | 'V' => args.map (fun y => JNum.num (y * sy + trY))
  | 'A' => arcGroups sx sy trX trY args
  | _ => defaultPairs sx sy trX trY args

/-- The replacement produced for one regex match `(command, argsStr)`. -/
def transformSeg (command : Char) (argsStr : List Char) (sx sy tx ty : ℚ) :
    List Char :=
  let args := scanNums (trimWs argsStr)
  if args.length = 0 ∧ toUpperCh command ≠ 'Z' then [command]
  else if toUpperCh command = 'Z' then ['Z']
  else command :: ' ' :: jjoin (segNewArgs command args sx sy tx ty)

/-- The segments matched by `/([A-Za-z])([^A-Za-z]*)/g`: each letter paired
with the non-letter run that follows it (characters before the first letter
belong to no match). -/
def segsFrom : List Char → List (Char × List Char)
  | [] => []
  | c :: cs =>
      if isAlphaCh c then
        (c, cs.takeWhile notAlpha) :: segsFrom (cs.dropWhile notAlpha)
      else segsFrom cs
termination_by s => s.length
decreasing_by
  · simp only [List.length_cons]
    exact Nat.lt_succ_of_le (List.dropWhile_sublist _).length_le
  · simp

/-- `transformPathData` from `utils/geometry.ts`. -/
def transformPathData (pathData : List Char) (scaleX scaleY : ℚ)
    (translate : Pt) : List Char :=
  if pathData.isEmpty then []
  else
    pathData.takeWhile notAlpha ++
      (segsFrom pathData).flatMap
        (fun seg =>
          transformSeg seg.1 seg.2 scaleX scaleY translate.x translate.y)

/-- `translatePathData` from `utils/geometry.ts`. -/
def translatePathData (pathData : List Char) (dx dy : ℚ) : List Char :=
  if pathData.isEmpty then [] else transformPathData pathData 1 1 ⟨dx, dy⟩

/-- The coordinate data encoded in a path string: the numeric arguments of
every command segment, in order, excluding closepath (`Z`/`z`) segments — the
path grammar gives closepath no arguments, so trailing numbers there encode
no coordinate point. -/
def coordinateData (p : List Char) : List ℚ :=
  (segsFrom p).flatMap
    (fun seg => if toUpperCh seg.1 = 'Z' then [] else scanNums seg.2)

/-! ### Abstract views of the path transform, used to state and prove the
round-trip properties -/

/-- The numeric values among serialized slots (`NaN` and `undefined`
contribute nothing). -/
def numsOf (jd : List JNum) : List ℚ :=
  jd.filterMap (fun x => match x with | JNum.num q => some q | _ => none)

/-- The tail form of `jjoin`: each slot preceded by the joining space. -/
def sepJoin (jd : List JNum) : List Char :=
  (jd.map (fun b => ' ' :: serJNum b)).join

/-- A command segment paired with its parsed numeric arguments. -/
def segsData (p : List Char) : List (Char × List ℚ) :=
  (segsFrom p).map (fun seg => (seg.1, scanNums seg.2))

/-- Coordinate data of a parsed segment list: all numeric arguments of
non-closepath segments. -/
def cdOf (S : List (Char × List ℚ)) : List ℚ :=
  S.flatMap (fun sd => if toUpperCh sd.1 = 'Z' then [] else sd.2)

/-- A rational with terminating decimal expansion (the values JS numbers
parsed from decimal tokens, and their products/sums with such, take). -/
def DecQ (q : ℚ) : Prop := ∃ k, (q.den : ℕ) ∣ 10 ^ k

/-- Pairwise coordinate transform: the value-level content of the
`default` branch. -/
def mapPairs (f g : ℚ → ℚ) : List ℚ → List ℚ
  | [] => []
  | [x] => [f x]
  | x :: y :: rest => f x :: g y :: mapPairs f g rest

/-- Index-aware map used to express the arc branch value-level content. -/
def mapWithIdx (f : ℕ → ℚ → ℚ) : ℕ → List ℚ → List ℚ
  | _, [] => []
  | i, x :: rest => f i x :: mapWithIdx f (i + 1) rest

/-- Per-position arc transform: radii by the absolute scales, rotation and
flags unchanged, terminal point scaled and translated. -/
def arcPosMap (sx sy tx ty : ℚ) (i : ℕ) (x : ℚ) : ℚ :=
  if i % 7 = 0 then x * |sx|
  else if i % 7 = 1 then x * |sy|
  else if i % 7 = 5 then x * sx + tx
  else if i % 7 = 6 then x * sy + ty
  else x

/-- The value-level content of one transformed segment: the numeric values
the replacement string for `(c, args)` carries. -/
def tSegNums (c : Char) (args : List ℚ) (sx sy tx ty : ℚ) : List ℚ :=
  numsOf (segNewArgs c args sx sy tx ty)

/-- The relation between the parsed segments of a path and the parsed
segments of its transform: each input segment becomes its head segment
(empty-argument command, closepath, or the command with the transformed
values) followed by junk segments — non-closepath letters with no numeric
arguments, produced by re-tokenizing serialized `NaN` slots. -/
inductive OutSegs (sx sy tx ty : ℚ) :
    List (Char × List ℚ) → List (Char × List ℚ) → Prop where
  | nil : OutSegs sx sy tx ty [] []
  | empt (c : Char) (args : List ℚ) (rest L : List (Char × List ℚ))
      (h1 : args = []) (h2 : toUpperCh c ≠ 'Z')
      (ih : OutSegs sx sy tx ty rest L) :
      OutSegs sx sy tx ty ((c, args) :: rest) ((c, []) :: L)
  | close (c : Char) (args : List ℚ) (rest L : List (Char × List ℚ))
      (h2 : toUpperCh c = 'Z') (ih : OutSegs sx sy tx ty rest L) :
      OutSegs sx sy tx ty ((c, args) :: rest) (('Z', []) :: L)
  | seg (c : Char) (args : List ℚ) (rest L J : List (Char × List ℚ))
      (h1 : args ≠ []) (h2 : toUpperCh c ≠ 'Z')
      (hJ : ∀ s ∈ J, toUpperCh (s : Char × List ℚ).1 ≠ 'Z' ∧
        (s : Char × List ℚ).2 = ([] : List ℚ))
      (ih : OutSegs sx sy tx ty rest L) :
      OutSegs sx sy tx ty ((c, args) :: rest)
        ((c, tSegNums c args sx sy tx ty) :: (J ++ L))

/-- A character that cannot extend or open a number token when it is the
first character of the remainder: the scan of a prefix is then independent
of the remainder. -/
def scanBoundary (t : List Char) : Prop :=
  ∀ c ∈ t.head?, isDigitCh c = false ∧ c ≠ '.'

/-- A remainder starting with a letter (or empty): the strongest boundary
occurring between command segments. -/
def alphaHead (t : List Char) : Prop := ∀ c ∈ t.head?, isAlphaCh c = true

/-! ### The interaction controller (`Canvas.tsx`) -/

/-- Resize handle names. -/
inductive Handle where
  | n | s | w | e | nw | ne | sw | se
deriving DecidableEq

/-- `handle.includes('e')`. -/
def Handle.hasE : Handle → Bool
  | .e => true | .ne => true | .se => true | _ => false

/-- `handle.includes('w')`. -/
def Handle.hasW : Handle → Bool
  | .w => true | .nw => true | .sw => true | _ => false

/-- `handle.includes('s')`. -/
def Handle.hasS : Handle → Bool
  | .s => true | .sw => true | .se => true | _ => false

/-- `handle.includes('n')`. -/
def Handle.hasN : Handle → Bool
  | .n => true | .nw => true | .ne => true | _ => false

/-- `['nw', 'ne', 'sw', 'se'].includes(handle)`. -/
def Handle.isCorner : Handle → Bool
  | .nw => true | .ne => true | .sw => true | .se => true | _ => false

inductive DragState where
  | none | drawing | draggingSelection | resizing | marquee
deriving DecidableEq

/-- Replace `points` on an element (`{ ...el, points: newPoints }`); a
`raster` element has no `points` field and is unchanged. -/
def Element.setPoints (el : Element) (ps : List Pt) : Element :=
  { el with
    kind :=
      match el.kind with
      | .pen _ => .pen ps
      | .line _ a b => .line ps a b
      | .rectangle _ => .rectangle ps
      | .circle _ => .circle ps
      | .path _ pd bd => .path ps pd bd
      | .text _ t => .text ps t
      | .raster u b s => .raster u b s }

/-- Replace `pathData` and `bounds` on a `path` element. -/
def Element.setPathDataBounds (el : Element) (pd : List Char) (b : Bounds) :
    Element :=
  { el with
    kind :=
      match el.kind with
      | .path ps _ _ => .path ps pd b
      | k => k }

/-- The per-variant translation applied to one selected element during a
drag (`switch (el.type)` in the `draggingSelection` branch of
`handleMouseMove`). -/
def translateElement (el : Element) (dx dy : ℚ) : Element :=
  match el.kind with
  | .path ps pd bounds =>
      { el with
        kind := .path (ps.map fun p => ⟨p.x + dx, p.y + dy⟩)
          (translatePathData pd dx dy)
          ⟨bounds.minX + dx, bounds.minY + dy, bounds.maxX + dx,
            bounds.maxY + dy⟩ }
  | .raster url bounds src =>
      { el with
        kind := .raster url
          ⟨bounds.minX + dx, bounds.minY + dy, bounds.maxX + dx,
            bounds.maxY + dy⟩ src }
  | .pen ps => { el with kind := .pen (ps.map fun p => ⟨p.x + dx, p.y + dy⟩) }
  | .line ps a b =>
      { el with kind := .line (ps.map fun p => ⟨p.x + dx, p.y + dy⟩) a b }
  | .rectangle ps =>
      { el with kind := .rectangle (ps.map fun p => ⟨p.x + dx, p.y + dy⟩) }
  | .circle ps =>
      { el with kind := .circle (ps.map fun p => ⟨p.x + dx, p.y + dy⟩) }
  | .text ps t =>
      { el with kind := .text (ps.map fun p => ⟨p.x + dx, p.y + dy⟩) t }

/-- JS `Map.prototype.set`: update in place if the key exists, else append
(insertion order is preserved). -/
def mapSet (m : List (ℤ × Element)) (k : ℤ) (v : Element) :
    List (ℤ × Element) :=
  if m.any (fun kv => kv.1 = k) then
    m.map (fun kv => if kv.1 = k then (k, v) else kv)
  else m ++ [(k, v)]

/-- JS `Map.prototype.get`. -/
def mapGet (m : List (ℤ × Element)) (k : ℤ) : Option Element :=
  (m.find? (fun kv => kv.1 = k)).map Prod.snd

/-- `new Map(prevElements.map(el => [el.id, el]))`. -/
def mapOfElements (els : List Element) : List (ℤ × Element) :=
  els.foldl (fun m el => mapSet m el.id el) []

/-- The `draggingSelection` branch of `handleMouseMove`: translate every
selected element by the pointer delta, via a JS `Map` keyed by id. -/
def handleMouseMoveDrag (selectedElementIds : List ℤ) (dx dy : ℚ)
    (prevElements : List Element) : List Element :=
  let m0 := mapOfElements prevElements
  let m1 := selectedElementIds.foldl
    (fun m i =>
      match mapGet m i with
      | some el => mapSet m i (translateElement el dx dy)
      | none => m)
    m0
  m1.map Prod.snd

/-- The gesture context captured on resize start (`resizingState`). -/
structure ResizingState where
  handle : Handle
  initialSelectionBounds : Bounds
  initialElements : List (ℤ × Element)
  aspectRat : ℚ

/-- The new group bounds computed by the `resizing` branch of
`handleMouseMove`: move the edges implied by the handle to the cursor,
normalize, then apply the shift-key aspect lock for corner handles.
(JS note: `isFinite(originalAspectRatio)` fails exactly when the initial
height is zero, since a nonzero width then gives `±Infinity` and a zero
width gives `NaN`, and `NaN > 0` is also false.) -/
def resizeNewBounds (handle : Handle) (isb : Bounds) (shiftKey : Bool)
    (currentPoint : Pt) : Bounds :=
  let b0 : Bounds :=
    ⟨if handle.hasW then currentPoint.x else isb.minX,
      if handle.hasN then currentPoint.y else isb.minY,
      if handle.hasE then currentPoint.x else isb.maxX,
      if handle.hasS then currentPoint.y else isb.maxY⟩
  let b1 : Bounds :=
    if b0.minX > b0.maxX then { b0 with minX := b0.maxX, maxX := b0.minX }
    else b0
  let nb : Bounds :=
    if b1.minY > b1.maxY then { b1 with minY := b1.maxY, maxY := b1.minY }
    else b1
  if shiftKey ∧ handle.isCorner then
    let originalAspect := (isb.maxX - isb.minX) / (isb.maxY - isb.minY)
    if isb.maxY - isb.minY ≠ 0 ∧ originalAspect > 0 then
      let newWidth := nb.maxX - nb.minX
      let newHeight := nb.maxY - nb.minY
      if |newWidth / newHeight - originalAspect| > 1 / 100 then
        if handle.hasW ∨ handle.hasE then
          let aspectHeight := newWidth / originalAspect
          if handle.hasN then { nb with minY := nb.maxY - aspectHeight }
          else { nb with maxY := nb.minY + aspectHeight }
        else
          let aspectWidth := newHeight * originalAspect
          if handle.hasW then { nb with minX := nb.maxX - aspectWidth }
          else { nb with maxX := nb.minX + aspectWidth }
      else nb
    else nb
  else nb

/-- The remap of one selected element inside the `resizing` branch, given
the derived scales and anchor origin. -/
def resizeRemapElement (el initialEl : Element) (scaleX scaleY : ℚ)
    (origin : Pt) : Element :=
  if initialEl.isRaster then el
  else
    let newPoints := initialEl.points.map (fun p =>
      ⟨origin.x + (p.x - origin.x) * scaleX,
        origin.y + (p.y - origin.y) * scaleY⟩)
    let el1 := el.setPoints newPoints
    match initialEl.kind with
    | .path _ pd bounds =>
        if pd.isEmpty then el1
        else
          let translation : Pt :=
            ⟨origin.x * (1 - scaleX), origin.y * (1 - scaleY)⟩
          let newPathData := transformPathData pd scaleX scaleY translation
          let nb0 : Bounds :=
            ⟨origin.x + (bounds.minX - origin.x) * scaleX,
              origin.y + (bounds.minY - origin.y) * scaleY,
              origin.x + (bounds.maxX - origin.x) * scaleX,
              origin.y + (bounds.maxY - origin.y) * scaleY⟩
          let nb1 : Bounds :=
            if nb0.minX > nb0.maxX then
              { nb0 with minX := nb0.maxX, maxX := nb0.minX }
            else nb0
          let nb2 : Bounds :=
            if nb1.minY > nb1.maxY then
              { nb1 with minY := nb1.maxY, maxY := nb1.minY }
            else nb1
          el1.setPathDataBounds newPathData nb2
    | _ => el1

/-- The `resizing` branch of `handleMouseMove`: one coalesced per-move
update of the element collection. -/
def handleMouseMoveResize (rs : ResizingState) (shiftKey : Bool)
    (currentPoint : Pt) (prev : List Element) : List Element :=
  let isb := rs.initialSelectionBounds
  let nb := resizeNewBounds rs.handle isb shiftKey currentPoint
  let initialWidth := isb.maxX - isb.minX
  let initialHeight := isb.maxY - isb.minY
  let scaleX := if initialWidth = 0 then 1 else (nb.maxX - nb.minX) / initialWidth
  let scaleY := if initialHeight = 0 then 1 else (nb.maxY - nb.minY) / initialHeight
  let origin : Pt :=
    ⟨if rs.handle.hasW then isb.maxX else isb.minX,
      if rs.handle.hasN then isb.maxY else isb.minY⟩
  prev.map (fun el =>
    match mapGet rs.initialElements el.id with
    | none => el
    | some initialEl => resizeRemapElement el initialEl scaleX scaleY origin)

/-- The `pen` simplification on pointer-up (`drawing` branch of
`handleMouseUp`): above 20 points, keep every 4th sample and the final
point. -/
def handleMouseUpPen (points : List Pt) : List Pt :=
  if points.length > 20 then
    ((points.enum).filter
        (fun ip => ip.1 % 4 = 0 ∨ ip.1 = points.length - 1)).map Prod.snd
  else points

/-- The normalized marquee rectangle. -/
def marqueeBounds (mStart mEnd : Pt) : Bounds :=
  ⟨min mStart.x mEnd.x, min mStart.y mEnd.y, max mStart.x mEnd.x,
    max mStart.y mEnd.y⟩

/-- A JS `Set<number>` of element ids: insertion-ordered distinct values;
`add` appends when the value is absent. -/
def setAdd (s : List ℤ) (x : ℤ) : List ℤ := if x ∈ s then s else s ++ [x]

/-- The `marquee` branch of `handleMouseUp`: select the elements whose
center lies strictly inside the normalized marquee rectangle, additively if
shift is held. -/
def handleMouseUpMarquee (sq : ℚ → ℚ) (tm : ℚ → String → ℚ)
    (elements : List Element) (mStart mEnd : Pt) (shiftKey : Bool)
    (prev : List ℤ) : List ℤ :=
  let bounds := marqueeBounds mStart mEnd
  let idsInMarquee := (elements.filter (fun el =>
      let c := getElementCenter sq tm el
      decide (bounds.minX < c.x ∧ c.x < bounds.maxX ∧ bounds.minY < c.y ∧
        c.y < bounds.maxY))).map Element.id
  idsInMarquee.foldl (fun s i => setAdd s i) (if shiftKey then prev else [])

/-- Result of the select-tool pointer-down dispatch. -/
structure SelectMouseDownResult where
  selection : List ℤ
  dragState : DragState
  marqueeRect : Option (Pt × Pt)
deriving DecidableEq

/-- The `tool === 'select'` branch of `handleMouseDown`: an already selected
hit leaves the selection as is; a new hit is added (replacing unless shift);
no hit clears (unless shift) and starts a marquee. -/
def handleMouseDownSelect (selectedElementIds : List ℤ)
    (clickedElement : Option Element) (shiftKey : Bool) (startPoint : Pt) :
    SelectMouseDownResult :=
  match clickedElement with
  | some el =>
      let sel :=
        if el.id ∈ selectedElementIds then selectedElementIds
        else setAdd (if shiftKey then selectedElementIds else []) el.id
      ⟨sel, .draggingSelection, none⟩
  | none =>
      ⟨if shiftKey then selectedElementIds else [], .marquee,
        some (startPoint, startPoint)⟩

/-- The scan loop of `getElementAtPoint`, over the already reversed element
list: per-element test failures are caught, logged (we record the logged
element ids) and skipped. -/
def scanForHit (test : Element → Except String Bool) :
    List Element → Option Element × List ℤ
  | [] => (none, [])
  | el :: rest =>
      match test el with
      | .ok true => (some el, [])
      | .ok false => scanForHit test rest
      | .error _ =>
          let r := scanForHit test rest
          (r.1, el.id :: r.2)

/-- `getElementAtPoint` from `Canvas.tsx`, parameterized by the per-element
containment test (`isPointInElement`, whose `Path2D` calls may throw).
Returns the hit together with the ids logged by the catch branch. -/
def getElementAtPoint (test : Element → Except String Bool)
    (elements : List Element) : Option Element × List ℤ :=
  scanForHit test elements.reverse

/-! ### The renderer's image cache (`utils/render.ts`)

The asynchronous load of `getImageFromCache` is modelled by explicit
events: a draw call either hits the cache or registers a load for the key;
the browser later fires the key's `onload` or `onerror` handler exactly as
installed by the source (`onload` sets `loaded` and invokes the redraw
callback, `onerror` sets `error` and only logs). -/

inductive ImgStatus where
  | loading | loaded | error
deriving DecidableEq

structure ImageCacheState where
  status : String → Option ImgStatus
  redrawCalls : ℕ

/-- `getImageFromCache`: returns whether an image is ready to draw, and the
updated cache state. -/
def getImageFromCache (src : String) (st : ImageCacheState) :
    Bool × ImageCacheState :=
  match st.status src with
  | Option.none =>
      (false,
        { st with
          status := fun k => if k = src then some .loading else st.status k })
  | some .loaded => (true, st)
  | some _ => (false, st)

/-- The `image.onload` handler installed by `getImageFromCache`: mark the
entry loaded and invoke the redraw callback. -/
def fireImageLoad (src : String) (st : ImageCacheState) : ImageCacheState :=
  { status := fun k => if k = src then some .loaded else st.status k,
    redrawCalls := st.redrawCalls + 1 }

/-- The `image.onerror` handler installed by `getImageFromCache`: mark the
entry errored and log; the redraw callback is not invoked. -/
def fireImageError (src : String) (st : ImageCacheState) : ImageCacheState :=
  { status := fun k => if k = src then some .error else st.status k,
    redrawCalls := st.redrawCalls }

/-- Whether a hit-test outcome is a non-throwing hit. -/
def hitOk (r : Except String Bool) : Bool :=
  match r with
  | .ok true => true
  | _ => false

/-- Whether a hit-test outcome is a thrown exception. -/
def hitThrew (r : Except String Bool) : Bool :=
  match r with
  | .error _ => true
  | _ => false

/-- Everything about an element except its geometric fields: the numeric
id, full style record and `isMap` tag, the variant tag, and the variant's
non-geometric payload — a line's connector references, a text element's
string, a raster's bitmap reference and `sourceStrokeColor`.  Exactly the
geometric fields `points`, `pathData` and `bounds` are erased (replaced by
fixed constants), so preservation of this projection says that nothing but
those fields changed. -/
def nonGeomKey (el : Element) : Element :=
  { el with
    kind :=
      match el.kind with
      | .pen _ => .pen []
      | .line _ a b => .line [] a b
      | .rectangle _ => .rectangle []
      | .circle _ => .circle []
      | .path _ _ _ => .path [] [] ⟨0, 0, 0, 0⟩
      | .text _ t => .text [] t
      | .raster u _ s => .raster u ⟨0, 0, 0, 0⟩ s }

/-! ### Concrete sample data used by witnesses and counterexamples -/

/-- A trivial text-measurement stand-in for concrete evaluations. -/
def tmZero : ℚ → String → ℚ := fun _ _ => 0

def sampleStyle : ElementStyle := ⟨"#000000", "transparent", 2, none⟩

/-- Rectangle with corners (10,10)-(20,20), center (15,15). -/
def rectInside : Element := ⟨1, sampleStyle, none, .rectangle [⟨10, 10⟩, ⟨20, 20⟩]⟩

/-- Rectangle with corners (200,200)-(210,210), center (205,205). -/
def rectOutside : Element := ⟨2, sampleStyle, none, .rectangle [⟨200, 200⟩, ⟨210, 210⟩]⟩

/-- A zero-height rectangle with corners (0,0)-(10,0). -/
def rectFlat : Element := ⟨3, sampleStyle, none, .rectangle [⟨0, 0⟩, ⟨10, 0⟩]⟩

/-- A circle centered at (0,0) through (10,0) (radius 10). -/
def circleTen : Element := ⟨4, sampleStyle, none, .circle [⟨0, 0⟩, ⟨10, 0⟩]⟩

/-- A raster element with bounds (0,0)-(10,10). -/
def rasterTen : Element :=
  ⟨5, sampleStyle, none, .raster "blob:bitmap-1" ⟨0, 0, 10, 10⟩ "#ff0000"⟩

/-- A rectangle with corners (0,0)-(10,10), sharing the raster's box. -/
def rectTen : Element := ⟨6, sampleStyle, none, .rectangle [⟨0, 0⟩, ⟨10, 10⟩]⟩

/-- The resize gesture state grabbing the `se` handle of the group
(0,0)-(10,10) containing `rasterTen` and `rectTen`. -/
def resizeStateSE : ResizingState :=
  ⟨.se, ⟨0, 0, 10, 10⟩, [(5, rasterTen), (6, rectTen)], 1⟩

/-- 21 distinct sampled pen points (i, 0). -/
def pts21 : List Pt := (List.range 21).map (fun i => ⟨(i : ℚ), 0⟩)

/-- A small pen stroke of 5 points. -/
def pts5 : List Pt := (List.range 5).map (fun i => ⟨(i : ℚ), 0⟩)

/-- The empty image-cache state. -/
def cacheEmpty : ImageCacheState := ⟨fun _ => none, 0⟩

/-! ## Theorems -/

/-- Helper: membership in a `foldl setAdd` over a JS-set list. -/
theorem mem_foldl_setAdd (l : List ℤ) (s : List ℤ) (x : ℤ) :
    x ∈ l.foldl (fun t i => setAdd t i) s ↔ x ∈ s ∨ x ∈ l := by
  induction l generalizing s with
  | nil => simp
  | cons a t ih =>
      rw [List.foldl_cons, ih]
      unfold setAdd
      by_cases ha : a ∈ s
      · rw [if_pos ha]
        simp only [List.mem_cons]
        constructor
        · tauto
        · rintro (h | rfl | h)
          · exact Or.inl h
          · exact Or.inl ha
          · exact Or.inr h
      · rw [if_neg ha]
        simp only [List.mem_append, List.mem_cons, List.mem_singleton,
          List.not_mem_nil, or_false]
        tauto

/-- **C10**: the point-to-segment hit test of `isPointNearLine` returns
`false` for a zero-length segment (both endpoints equal), for every query
point, every threshold and every square-root primitive: the degenerate guard
short-circuits before the division. -/
theorem isPointNearLine_zero_length_never_hit (sq : ℚ → ℚ) (p point : Pt)
    (threshold : ℚ) : isPointNearLine sq p p point threshold = false := by
  simp [isPointNearLine]

/-- **C9**: on select-tool pointer-down over an element already in the
selection, the selection set is returned unchanged (with or without the
modifier key) and the gesture enters `draggingSelection`. -/
theorem handleMouseDownSelect_already_selected (sel : List ℤ)
    (el : Element) (shift : Bool) (startPoint : Pt) (h : el.id ∈ sel) :
    handleMouseDownSelect sel (some el) shift startPoint =
      ⟨sel, .draggingSelection, none⟩ := by
  simp [handleMouseDownSelect, h]

/-- Witness for C9 at a concrete two-element selection. -/
theorem handleMouseDownSelect_already_selected_witness :
    rectInside.id ∈ ([1, 2] : List ℤ) ∧
      handleMouseDownSelect [1, 2] (some rectInside) false ⟨15, 15⟩ =
        ⟨[1, 2], .draggingSelection, none⟩ :=
  ⟨by decide,
    handleMouseDownSelect_already_selected [1, 2] rectInside false ⟨15, 15⟩
      (by decide)⟩

/-- Helper: filtering an enumeration from `k` on the index and keeping the
values equals filtering the index range and reading the values back. -/
theorem enumFrom_filter_map_snd {α : Type} (l : List α) :
    ∀ (k : ℕ) (p : ℕ → Bool),
      (((List.enumFrom k l).filter (fun ip => p ip.1)).map Prod.snd) =
        ((List.range l.length).filter (fun i => p (i + k))).filterMap
          l.get? := by
  induction l with
  | nil => intro k p; simp
  | cons a t ih =>
      intro k p
      rw [List.enumFrom_cons, List.length_cons, List.range_succ_eq_map]
      rw [List.filter_cons, List.filter_cons]
      have hfun : ((a :: t).get? ∘ Nat.succ) = t.get? := by
        funext i
        rfl
      have hpred :
          ((fun i => p (i + k)) ∘ Nat.succ) = (fun i => p (i + (k + 1))) := by
        funext i
        simp only [Function.comp_apply]
        congr 1
        omega
      have hsucc :
          List.filterMap (a :: t).get?
              (List.filter (fun i => p (i + k)) (List.map Nat.succ
                (List.range t.length))) =
            List.filterMap t.get?
              (List.filter (fun i => p (i + (k + 1)))
                (List.range t.length)) := by
        rw [List.filter_map, List.filterMap_map, hfun, hpred]
      dsimp only
      simp only [Nat.zero_add]
      by_cases hp : p k = true
      · rw [if_pos hp, if_pos hp]
        rw [List.map_cons, List.filterMap_cons]
        simp only [List.get?_cons_zero]
        rw [hsucc, ih (k + 1) p]
      · rw [if_neg hp, if_neg hp]
        rw [hsucc, ih (k + 1) p]

/-- Helper: the `k = 0` form over `List.enum`. -/
theorem enum_filter_map_snd {α : Type} (p : ℕ → Bool) (l : List α) :
    ((l.enum.filter (fun ip => p ip.1)).map Prod.snd) =
      ((List.range l.length).filter p).filterMap l.get? := by
  have h := enumFrom_filter_map_snd l 0 p
  simpa using h

/-- **C4**: on pointer-up, a `pen` stroke longer than the 20-point threshold
keeps exactly the samples at indices divisible by 4 plus the final sample
(each index once, in order), and a stroke at or below the threshold is
committed unchanged. -/
theorem handleMouseUpPen_spec (points : List Pt) :
    (points.length > 20 →
      handleMouseUpPen points =
        ((List.range points.length).filter
            (fun i => decide (i % 4 = 0 ∨ i = points.length - 1))).filterMap
          points.get?) ∧
    (points.length ≤ 20 → handleMouseUpPen points = points) := by
  constructor
  · intro h
    unfold handleMouseUpPen
    rw [if_pos h]
    exact enum_filter_map_snd
      (fun i => decide (i % 4 = 0 ∨ i = points.length - 1)) points
  · intro h
    unfold handleMouseUpPen
    rw [if_neg (by omega)]

/-- Witness for C4: a 21-point stroke keeps indices 0,4,8,12,16,20, with the
final point appearing exactly once; a 5-point stroke is unchanged. -/
theorem handleMouseUpPen_spec_witness :
    pts21.length > 20 ∧
      handleMouseUpPen pts21 =
        ((List.range pts21.length).filter
            (fun i => decide (i % 4 = 0 ∨ i = pts21.length - 1))).filterMap
          pts21.get? ∧
      handleMouseUpPen pts21 =
        [⟨0, 0⟩, ⟨4, 0⟩, ⟨8, 0⟩, ⟨12, 0⟩, ⟨16, 0⟩, ⟨20, 0⟩] ∧
      pts5.length ≤ 20 ∧ handleMouseUpPen pts5 = pts5 :=
  ⟨by decide, (handleMouseUpPen_spec pts21).1 (by decide), by decide,
    by decide, (handleMouseUpPen_spec pts5).2 (by decide)⟩

/-- **C5**: on pointer-up of a marquee gesture, an id is selected iff it was
previously selected and the modifier key is held, or it is the id of an
element whose center lies strictly inside the normalized marquee rectangle;
concretely, a marquee from (0,0) to (100,100) selects the rectangle with
center (15,15) and not the one with center (205,205). -/
theorem handleMouseUpMarquee_spec :
    (∀ (sq : ℚ → ℚ) (tm : ℚ → String → ℚ) (elements : List Element)
        (mStart mEnd : Pt) (shiftKey : Bool) (prev : List ℤ) (x : ℤ),
      x ∈ handleMouseUpMarquee sq tm elements mStart mEnd shiftKey prev ↔
        ((shiftKey = true ∧ x ∈ prev) ∨
          ∃ el ∈ elements, el.id = x ∧
            (marqueeBounds mStart mEnd).minX < (getElementCenter sq tm el).x ∧
            (getElementCenter sq tm el).x < (marqueeBounds mStart mEnd).maxX ∧
            (marqueeBounds mStart mEnd).minY < (getElementCenter sq tm el).y ∧
            (getElementCenter sq tm el).y < (marqueeBounds mStart mEnd).maxY)) ∧
    ((1 : ℤ) ∈ handleMouseUpMarquee ratSqrt tmZero [rectInside, rectOutside]
        ⟨0, 0⟩ ⟨100, 100⟩ false [] ∧
      (2 : ℤ) ∉ handleMouseUpMarquee ratSqrt tmZero [rectInside, rectOutside]
        ⟨0, 0⟩ ⟨100, 100⟩ false []) := by
  have hA : ∀ (sq : ℚ → ℚ) (tm : ℚ → String → ℚ) (elements : List Element)
      (mStart mEnd : Pt) (shiftKey : Bool) (prev : List ℤ) (x : ℤ),
      x ∈ handleMouseUpMarquee sq tm elements mStart mEnd shiftKey prev ↔
        ((shiftKey = true ∧ x ∈ prev) ∨
          ∃ el ∈ elements, el.id = x ∧
            (marqueeBounds mStart mEnd).minX < (getElementCenter sq tm el).x ∧
            (getElementCenter sq tm el).x < (marqueeBounds mStart mEnd).maxX ∧
            (marqueeBounds mStart mEnd).minY < (getElementCenter sq tm el).y ∧
            (getElementCenter sq tm el).y < (marqueeBounds mStart mEnd).maxY) := by
    intro sq tm elements mStart mEnd shiftKey prev x
    unfold handleMouseUpMarquee
    rw [mem_foldl_setAdd]
    apply or_congr
    · cases shiftKey <;> simp
    · simp only [List.mem_map, List.mem_filter, decide_eq_true_eq]
      constructor
      · rintro ⟨el, ⟨hmem, hprop⟩, hid⟩
        exact ⟨el, hmem, hid, hprop.1, hprop.2.1, hprop.2.2.1, hprop.2.2.2⟩
      · rintro ⟨el, hmem, hid, h1, h2, h3, h4⟩
        exact ⟨el, ⟨hmem, h1, h2, h3, h4⟩, hid⟩
  have hcIn : getElementCenter ratSqrt tmZero rectInside = ⟨15, 15⟩ := by
    norm_num [getElementCenter, getRawElementBounds, rectInside,
      Element.points, pointsBounds]
  have hcOut : getElementCenter ratSqrt tmZero rectOutside = ⟨205, 205⟩ := by
    norm_num [getElementCenter, getRawElementBounds, rectOutside,
      Element.points, pointsBounds]
  refine ⟨hA, ?_, ?_⟩
  · rw [hA]
    refine Or.inr ⟨rectInside, by simp, rfl, ?_, ?_, ?_, ?_⟩ <;>
      rw [hcIn] <;> norm_num [marqueeBounds]
  · rw [hA]
    rintro (⟨hfalse, _⟩ | ⟨el, hmem, hid, h1, h2, h3, h4⟩)
    · exact Bool.false_ne_true hfalse
    · simp only [List.mem_cons, List.not_mem_nil, or_false] at hmem
      rcases hmem with h | h
      · subst h
        exact absurd hid (by decide)
      · subst h
        rw [hcOut] at h2
        rw [marqueeBounds] at h2
        norm_num at h2

/-- Helper: the scan loop of `getElementAtPoint` returns the first
non-throwing hit and logs exactly the throwing elements scanned before it. -/
theorem scanForHit_spec (test : Element → Except String Bool)
    (l : List Element) :
    scanForHit test l =
      (l.findSome? (fun el => if hitOk (test el) then some el else none),
        ((l.takeWhile (fun el => !hitOk (test el))).filter
            (fun el => hitThrew (test el))).map Element.id) := by
  induction l with
  | nil => simp [scanForHit]
  | cons el rest ih =>
      rcases h : test el with e | b
      · simp [scanForHit, h, ih, hitOk, hitThrew, List.findSome?_cons,
          List.takeWhile, List.filter_cons]
      · cases b <;>
          simp [scanForHit, h, ih, hitOk, hitThrew, List.findSome?_cons,
            List.takeWhile, List.filter_cons]

/-- **C7**: hit-testing scans the elements topmost-first (reverse draw
order); per-element exceptions are caught and logged (the scan does not
abort), and the topmost non-throwing hit — or no hit — is returned.  The
logged ids are exactly the throwing elements scanned before the hit. -/
theorem getElementAtPoint_spec (test : Element → Except String Bool)
    (elements : List Element) :
    getElementAtPoint test elements =
      (elements.reverse.findSome?
          (fun el => if hitOk (test el) then some el else none),
        ((elements.reverse.takeWhile (fun el => !hitOk (test el))).filter
            (fun el => hitThrew (test el))).map Element.id) :=
  scanForHit_spec test elements.reverse

/-- **C1 counterexample**: resizing the (0,0)-(10,10) group from its `se`
handle to (20,20) doubles the rectangle in the selection, but returns the
selected raster element completely unchanged — its stored bounds stay
(0,0)-(10,10) instead of the anchor-relative affine image (0,0)-(20,20)
that the claim asserts (the image the co-selected rectangle receives). -/
theorem handleMouseMoveResize_raster_counterexample :
    handleMouseMoveResize resizeStateSE false ⟨20, 20⟩ [rasterTen, rectTen] =
      [rasterTen, ⟨6, sampleStyle, none, .rectangle [⟨0, 0⟩, ⟨20, 20⟩]⟩] ∧
    rasterTen.kind = .raster "blob:bitmap-1" ⟨0, 0, 10, 10⟩ "#ff0000" ∧
    (⟨0 + (0 - 0) * 2, 0 + (0 - 0) * 2, 0 + (10 - 0) * 2,
        0 + (10 - 0) * 2⟩ : Bounds) = ⟨0, 0, 20, 20⟩ ∧
    (⟨0, 0, 10, 10⟩ : Bounds) ≠ ⟨0, 0, 20, 20⟩ := by
  refine ⟨?_, rfl, by norm_num, by decide⟩
  norm_num [handleMouseMoveResize, resizeNewBounds, resizeRemapElement,
    resizeStateSE, mapGet, List.find?, rasterTen, rectTen, Element.isRaster,
    Element.setPoints, Element.points, Handle.hasW, Handle.hasN, Handle.hasE,
    Handle.hasS, Handle.isCorner]

/-- **C1 amended**: during a resize gesture, a selected element whose
gesture-start snapshot is of variant `raster` is returned entirely
unchanged by the per-pointer-move update — its stored bounds are not
remapped and its bitmap reference is untouched (other variants are remapped
by the anchor-relative affine map). -/
theorem handleMouseMoveResize_raster_unchanged (rs : ResizingState)
    (shift : Bool) (cp : Pt) (prev : List Element) (i : ℕ) (ie : Element)
    (hi : i < prev.length)
    (hie : mapGet rs.initialElements (prev.get ⟨i, hi⟩).id = some ie)
    (hr : ie.isRaster = true) :
    (handleMouseMoveResize rs shift cp prev)[i]? =
      some (prev.get ⟨i, hi⟩) := by
  unfold handleMouseMoveResize
  rw [List.getElem?_map, List.getElem?_eq_getElem hi]
  have hpg : prev[i] = prev.get ⟨i, hi⟩ := rfl
  rw [Option.map_some']
  rw [hpg, hie]
  unfold resizeRemapElement
  dsimp only
  rw [if_pos hr]

/-- Witness for the amended C1 at the concrete `se`-handle resize. -/
theorem handleMouseMoveResize_raster_unchanged_witness :
    0 < [rasterTen, rectTen].length ∧
    mapGet resizeStateSE.initialElements
        (([rasterTen, rectTen].get ⟨0, by decide⟩).id) = some rasterTen ∧
    rasterTen.isRaster = true ∧
    (handleMouseMoveResize resizeStateSE false ⟨20, 20⟩
        [rasterTen, rectTen])[0]? =
      some ([rasterTen, rectTen].get ⟨0, by decide⟩) :=
  ⟨by decide, by decide, by decide,
    handleMouseMoveResize_raster_unchanged resizeStateSE false ⟨20, 20⟩
      [rasterTen, rectTen] 0 rasterTen (by decide) (by decide) (by decide)⟩

/-- **C3 counterexample**: after a first draw call for a fresh key, firing
the key's load-error handler reaches the terminal `error` state but invokes
the redraw callback zero times — not once, as the claim asserts for both
terminal transitions. -/
theorem fireImageError_no_redraw_counterexample :
    ((fireImageError "k" (getImageFromCache "k" cacheEmpty).2).status "k" =
      some ImgStatus.error) ∧
    (fireImageError "k" (getImageFromCache "k" cacheEmpty).2).redrawCalls =
      0 ∧
    (fireImageError "k" (getImageFromCache "k" cacheEmpty).2).redrawCalls ≠
      1 := by
  refine ⟨?_, rfl, by decide⟩
  simp [fireImageError, getImageFromCache, cacheEmpty]

/-- **C3 amended**: for a fresh key, the first draw call installs a loading
entry; the load handler moves it to `loaded` and invokes the redraw
callback exactly once, while the error handler moves it to `error` without
invoking the callback; and a draw call for a key that already has an entry
leaves the cache state unchanged (so no second handler is ever installed
for a key, making the `loaded` callback exactly-once per key). -/
theorem getImageFromCache_callback_on_load_only (src : String)
    (st : ImageCacheState) (h : st.status src = none) :
    ((getImageFromCache src st).2.status src = some ImgStatus.loading) ∧
    ((fireImageLoad src (getImageFromCache src st).2).status src =
        some ImgStatus.loaded ∧
      (fireImageLoad src (getImageFromCache src st).2).redrawCalls =
        (getImageFromCache src st).2.redrawCalls + 1) ∧
    ((fireImageError src (getImageFromCache src st).2).status src =
        some ImgStatus.error ∧
      (fireImageError src (getImageFromCache src st).2).redrawCalls =
        (getImageFromCache src st).2.redrawCalls) ∧
    (∀ (st2 : ImageCacheState) (s2 : ImgStatus), st2.status src = some s2 →
      (getImageFromCache src st2).2 = st2) := by
  refine ⟨?_, ⟨?_, ?_⟩, ⟨?_, ?_⟩, ?_⟩
  · simp [getImageFromCache, h]
  · simp [fireImageLoad]
  · simp [fireImageLoad, getImageFromCache, h]
  · simp [fireImageError]
  · simp [fireImageError, getImageFromCache, h]
  · intro st2 s2 h2
    cases s2 <;> simp [getImageFromCache, h2]

/-- Witness for the amended C3 at a fresh key in the empty cache. -/
theorem getImageFromCache_callback_on_load_only_witness :
    cacheEmpty.status "k" = none ∧
    ((getImageFromCache "k" cacheEmpty).2.status "k" =
        some ImgStatus.loading) ∧
    ((fireImageLoad "k" (getImageFromCache "k" cacheEmpty).2).status "k" =
        some ImgStatus.loaded ∧
      (fireImageLoad "k" (getImageFromCache "k" cacheEmpty).2).redrawCalls =
        (getImageFromCache "k" cacheEmpty).2.redrawCalls + 1) ∧
    ((fireImageError "k" (getImageFromCache "k" cacheEmpty).2).status "k" =
        some ImgStatus.error ∧
      (fireImageError "k" (getImageFromCache "k" cacheEmpty).2).redrawCalls =
        (getImageFromCache "k" cacheEmpty).2.redrawCalls) ∧
    (∀ (st2 : ImageCacheState) (s2 : ImgStatus), st2.status "k" = some s2 →
      (getImageFromCache "k" st2).2 = st2) := by
  have h := getImageFromCache_callback_on_load_only "k" cacheEmpty rfl
  exact ⟨rfl, h.1, h.2.1, h.2.2.1, h.2.2.2⟩

/-- Helper: translating an element preserves id, style and the map tag. -/
theorem setPoints_nonGeom (el : Element) (ps : List Pt) :
    nonGeomKey (el.setPoints ps) = nonGeomKey el := by
  cases hk : el.kind <;> simp [Element.setPoints, hk, nonGeomKey]

theorem setPathDataBounds_nonGeom (el : Element) (pd : List Char)
    (b : Bounds) :
    nonGeomKey (el.setPathDataBounds pd b) = nonGeomKey el := by
  cases hk : el.kind <;> simp [Element.setPathDataBounds, hk, nonGeomKey]

theorem translateElement_nonGeom (el : Element) (dx dy : ℚ) :
    nonGeomKey (translateElement el dx dy) = nonGeomKey el := by
  cases hk : el.kind <;> simp [translateElement, hk, nonGeomKey]

/-- Helper: the per-element resize remap changes nothing outside the
geometric fields. -/
theorem resizeRemapElement_nonGeom (el ie : Element) (sx sy : ℚ) (o : Pt) :
    nonGeomKey (resizeRemapElement el ie sx sy o) = nonGeomKey el := by
  unfold resizeRemapElement
  split
  · rfl
  · cases hk : ie.kind <;>
      simp only [hk] <;>
      first
        | exact setPoints_nonGeom el _
        | (split_ifs <;>
            simp [setPathDataBounds_nonGeom, setPoints_nonGeom])

/-- Helper: every per-move resize update changes nothing outside the
geometric fields of any element, pointwise. -/
theorem handleMouseMoveResize_nonGeom (rs : ResizingState) (shift : Bool)
    (cp : Pt) (prev : List Element) :
    (handleMouseMoveResize rs shift cp prev).map nonGeomKey =
      prev.map nonGeomKey := by
  unfold handleMouseMoveResize
  rw [List.map_map]
  apply List.map_congr_left
  intro el _
  simp only [Function.comp_apply]
  cases hg : mapGet rs.initialElements el.id with
  | none => rfl
  | some ie => exact resizeRemapElement_nonGeom el ie _ _ _

/-- Helper: `Map.set` on an absent key appends. -/
theorem mapSet_absent (m : List (ℤ × Element)) (k : ℤ) (v : Element)
    (h : ∀ kv ∈ m, (kv : ℤ × Element).1 ≠ k) :
    mapSet m k v = m ++ [(k, v)] := by
  unfold mapSet
  rw [if_neg]
  intro hc
  rw [List.any_eq_true] at hc
  rcases hc with ⟨kv, hkv, he⟩
  exact h kv hkv (by simpa using he)

/-- Helper: building the id-keyed map from a duplicate-free element list
pairs each element with its id, in order. -/
theorem mapOfElements_nodup (prev : List Element)
    (h : (prev.map Element.id).Nodup) :
    mapOfElements prev = prev.map (fun el => (el.id, el)) := by
  suffices hgen : ∀ (l : List Element) (acc : List (ℤ × Element)),
      (∀ kv ∈ acc, (kv : ℤ × Element).1 ∉ l.map Element.id) →
      (l.map Element.id).Nodup →
      l.foldl (fun m el => mapSet m el.id el) acc =
        acc ++ l.map (fun el => (el.id, el)) by
    have := hgen prev [] (by simp) h
    simpa [mapOfElements] using this
  intro l
  induction l with
  | nil => intro acc _ _; simp
  | cons el t ih =>
      intro acc hdisj hnd
      rw [List.foldl_cons]
      rw [mapSet_absent acc el.id el (fun kv hkv => by
        have hx := hdisj kv hkv
        simp only [List.map_cons, List.mem_cons] at hx
        exact fun he => hx (Or.inl he))]
      rw [List.map_cons] at hnd
      rw [List.nodup_cons] at hnd
      rw [ih (acc ++ [(el.id, el)]) ?_ hnd.2]
      · simp
      · intro kv hkv
        rcases List.mem_append.mp hkv with h1 | h2
        · have hx := hdisj kv h1
          simp only [List.map_cons, List.mem_cons] at hx
          intro hmem
          exact hx (Or.inr hmem)
        · simp only [List.mem_singleton] at h2
          subst h2
          exact hnd.1

/-- The key together with the non-geometric fields of a map entry. -/
def pairKey (kv : ℤ × Element) : ℤ × Element := (kv.1, nonGeomKey kv.2)

/-- Helper: updating a present key with the translated stored value leaves
every entry's key and non-geometric fields unchanged (keys assumed
duplicate-free, as produced from a duplicate-free element list). -/
theorem mapSet_translate_pairKey (dx dy : ℚ) (i : ℤ) :
    ∀ (m : List (ℤ × Element)) (v : Element),
      (m.map Prod.fst).Nodup →
      mapGet m i = some v →
      (mapSet m i (translateElement v dx dy)).map pairKey =
        m.map pairKey := by
  intro m
  induction m with
  | nil => intro v _ hg; simp [mapGet] at hg
  | cons kv m ih =>
      intro v hnd hg
      rw [List.map_cons, List.nodup_cons] at hnd
      by_cases hk : kv.1 = i
      · have hv : v = kv.2 := by
          unfold mapGet at hg
          rw [List.find?_cons_of_pos _ (by simpa using hk)] at hg
          simpa using hg.symm
        subst hv
        have hnone : ∀ kv2 ∈ m, (kv2 : ℤ × Element).1 ≠ i := by
          intro kv2 hkv2 he
          apply hnd.1
          have hkk : kv.1 = kv2.1 := by rw [hk, he]
          rw [hkk]
          exact List.mem_map_of_mem Prod.fst hkv2
        unfold mapSet
        rw [if_pos (by
          rw [List.any_eq_true]
          exact ⟨kv, List.mem_cons_self kv m, by simpa using hk⟩)]
        rw [List.map_cons, List.map_cons, List.map_cons]
        congr 1
        · simp only [if_pos hk, pairKey]
          rw [translateElement_nonGeom, hk]
        · rw [List.map_map]
          apply List.map_congr_left
          intro kv2 hkv2
          simp only [Function.comp_apply]
          rw [if_neg (hnone kv2 hkv2)]
      · have hg2 : mapGet m i = some v := by
          unfold mapGet at hg ⊢
          rw [List.find?_cons_of_neg _ (by simpa using hk)] at hg
          exact hg
        obtain ⟨kv0, hfind, hv0⟩ := Option.map_eq_some'.mp hg2
        have hmem0 := List.mem_of_find?_eq_some hfind
        have hpred0 : kv0.1 = i := by simpa using List.find?_some hfind
        have hany2 : m.any (fun kv2 => decide (kv2.1 = i)) = true := by
          rw [List.any_eq_true]
          exact ⟨kv0, hmem0, by simpa using hpred0⟩
        have hstep := ih v hnd.2 hg2
        unfold mapSet at hstep ⊢
        rw [if_pos hany2] at hstep
        rw [if_pos (by
          rw [List.any_cons]
          rw [hany2]
          simp)]
        rw [List.map_cons, List.map_cons, List.map_cons]
        rw [if_neg hk, hstep]

/-- Helper: the drag fold over the selected ids preserves every entry's
key and non-geometric fields. -/
theorem dragFold_pairKey (dx dy : ℚ) (sel : List ℤ) :
    ∀ (m : List (ℤ × Element)),
      (m.map Prod.fst).Nodup →
      ((sel.foldl (fun m2 i =>
          match mapGet m2 i with
          | some el => mapSet m2 i (translateElement el dx dy)
          | none => m2) m).map pairKey) = m.map pairKey := by
  induction sel with
  | nil => intro m _; simp
  | cons i rest ih =>
      intro m hnd
      rw [List.foldl_cons]
      cases hg : mapGet m i with
      | none =>
          simp only [hg]
          exact ih m hnd
      | some v =>
          simp only [hg]
          have hstep := mapSet_translate_pairKey dx dy i m v hnd hg
          have hkeys : ((mapSet m i (translateElement v dx dy)).map
              Prod.fst).Nodup := by
            have hfst : (mapSet m i (translateElement v dx dy)).map
                Prod.fst = m.map Prod.fst := by
              have h1 := congrArg (List.map Prod.fst) hstep
              rw [List.map_map, List.map_map] at h1
              exact h1
            rw [hfst]
            exact hnd
          rw [ih (mapSet m i (translateElement v dx dy)) hkeys, hstep]

/-- Helper: every per-move drag update changes nothing outside the
geometric fields of any element, pointwise, provided element ids are
duplicate-free. -/
theorem handleMouseMoveDrag_nonGeom (sel : List ℤ) (dx dy : ℚ)
    (prev : List Element) (h : (prev.map Element.id).Nodup) :
    (handleMouseMoveDrag sel dx dy prev).map nonGeomKey =
      prev.map nonGeomKey := by
  unfold handleMouseMoveDrag
  have h0 : mapOfElements prev = prev.map (fun el => (el.id, el)) :=
    mapOfElements_nodup prev h
  have hkeys : ((mapOfElements prev).map Prod.fst).Nodup := by
    rw [h0, List.map_map]
    exact h
  have hfold := dragFold_pairKey dx dy sel (mapOfElements prev) hkeys
  have hsnd : ∀ (l : List (ℤ × Element)),
      (l.map Prod.snd).map nonGeomKey = (l.map pairKey).map Prod.snd := by
    intro l
    rw [List.map_map, List.map_map]
    rfl
  rw [hsnd, hfold, h0, List.map_map, List.map_map]
  rfl

/-- **C8**: both geometry-mutating per-move operations — drag translation
and resize remapping — change nothing outside the geometric fields
(`points`, `pathData`, `bounds`) of any element: the numeric identity, the
entire style record, the `isMap` tag, the variant tag, a line's connector
references, a text element's string, and a raster's bitmap reference and
`sourceStrokeColor` are all preserved pointwise.  (Drag goes through a JS
`Map` keyed by id, so it assumes the standing invariant that ids are
duplicate-free.) -/
theorem geometryMutatingOps_only_geometry_changes :
    (∀ (sel : List ℤ) (dx dy : ℚ) (prev : List Element),
        (prev.map Element.id).Nodup →
        (handleMouseMoveDrag sel dx dy prev).map nonGeomKey =
          prev.map nonGeomKey) ∧
    (∀ (rs : ResizingState) (shift : Bool) (cp : Pt) (prev : List Element),
        (handleMouseMoveResize rs shift cp prev).map nonGeomKey =
          prev.map nonGeomKey) :=
  ⟨handleMouseMoveDrag_nonGeom, handleMouseMoveResize_nonGeom⟩

/-- Witness for C8: the spec's example drag delta (5, −3) over a concrete
two-element collection, and the concrete `se` resize. -/
theorem geometryMutatingOps_only_geometry_changes_witness :
    ([rasterTen, rectTen].map Element.id).Nodup ∧
    (handleMouseMoveDrag [5] 5 (-3) [rasterTen, rectTen]).map nonGeomKey =
      [rasterTen, rectTen].map nonGeomKey ∧
    (handleMouseMoveResize resizeStateSE false ⟨20, 20⟩
        [rasterTen, rectTen]).map nonGeomKey =
      [rasterTen, rectTen].map nonGeomKey :=
  ⟨by decide,
    geometryMutatingOps_only_geometry_changes.1 [5] 5 (-3)
      [rasterTen, rectTen] (by decide),
    geometryMutatingOps_only_geometry_changes.2 resizeStateSE false ⟨20, 20⟩
      [rasterTen, rectTen]⟩

/-- **C6 counterexample**: `rectFlat` is a box-like element of zero height
(bounds (0,0)-(10,0)), yet `getAttachmentPoint` at a target equal to its
center (5,0) returns (10,0), not the center — the degenerate-direction
branch fires before the zero-width/height check. -/
theorem getAttachmentPoint_degenerate_counterexample :
    ((getRawElementBounds ratSqrt tmZero rectFlat).maxY =
      (getRawElementBounds ratSqrt tmZero rectFlat).minY) ∧
    getElementCenter ratSqrt tmZero rectFlat = ⟨5, 0⟩ ∧
    getAttachmentPoint ratSqrt tmZero rectFlat ⟨5, 0⟩ = ⟨10, 0⟩ ∧
    (⟨10, 0⟩ : Pt) ≠ ⟨5, 0⟩ := by
  refine ⟨?_, ?_, ?_, by decide⟩
  · norm_num [getRawElementBounds, rectFlat, Element.points, pointsBounds]
  · norm_num [getElementCenter, getRawElementBounds, rectFlat,
      Element.points, pointsBounds]
  · norm_num [getAttachmentPoint, getElementCenter, getRawElementBounds,
      rectFlat, Element.points, Element.isCircle, pointsBounds]

/-- Helper: raw bounds of a circle element are center ± the square root of
the squared center-edge distance. -/
theorem getRawElementBounds_circle (sq : ℚ → ℚ) (tm : ℚ → String → ℚ)
    (el : Element) (c e : Pt) (rest : List Pt)
    (hk : el.kind = ElementKind.circle (c :: e :: rest)) :
    getRawElementBounds sq tm el =
      ⟨c.x - sq ((e.x - c.x) ^ 2 + (e.y - c.y) ^ 2),
        c.y - sq ((e.x - c.x) ^ 2 + (e.y - c.y) ^ 2),
        c.x + sq ((e.x - c.x) ^ 2 + (e.y - c.y) ^ 2),
        c.y + sq ((e.x - c.x) ^ 2 + (e.y - c.y) ^ 2)⟩ := by
  simp [getRawElementBounds, hk]

/-- Helper: the center of a circle element is its first defining point
(independently of the square-root primitive: the radius cancels). -/
theorem getElementCenter_circle (sq : ℚ → ℚ) (tm : ℚ → String → ℚ)
    (el : Element) (c e : Pt) (rest : List Pt)
    (hk : el.kind = ElementKind.circle (c :: e :: rest)) :
    getElementCenter sq tm el = ⟨c.x, c.y⟩ := by
  unfold getElementCenter
  rw [getRawElementBounds_circle sq tm el c e rest hk]
  dsimp only
  rw [Pt.mk.injEq]
  constructor <;> ring

/-- **C6 amended**: (a) for a circle element and a target distinct from its
center, when the square-root primitive is exact and non-negative on the two
radicands involved, the attachment point lies at squared distance exactly
the squared radius from the center, in the direction of the target
(non-negative scalar multiple); (b) when the target coincides with the
center, the canonical boundary point (centerX + radius, centerY) is
returned; (c) a box-like (non-circle) element with zero width or zero
height yields the center — provided the target is distinct from the center
(when the target coincides with the center, the degenerate-direction branch
fires first and returns (centerX + halfWidth, centerY) instead, as the
counterexample shows). -/
theorem getAttachmentPoint_amended (sq : ℚ → ℚ) (tm : ℚ → String → ℚ)
    (el : Element) (target : Pt) :
    (∀ c e rest, el.kind = ElementKind.circle (c :: e :: rest) →
      sq ((e.x - c.x) ^ 2 + (e.y - c.y) ^ 2) *
          sq ((e.x - c.x) ^ 2 + (e.y - c.y) ^ 2) =
        (e.x - c.x) ^ 2 + (e.y - c.y) ^ 2 →
      0 ≤ sq ((e.x - c.x) ^ 2 + (e.y - c.y) ^ 2) →
      sq ((target.x - c.x) ^ 2 + (target.y - c.y) ^ 2) *
          sq ((target.x - c.x) ^ 2 + (target.y - c.y) ^ 2) =
        (target.x - c.x) ^ 2 + (target.y - c.y) ^ 2 →
      0 ≤ sq ((target.x - c.x) ^ 2 + (target.y - c.y) ^ 2) →
      target ≠ ⟨c.x, c.y⟩ →
      (((getAttachmentPoint sq tm el target).x - c.x) ^ 2 +
          ((getAttachmentPoint sq tm el target).y - c.y) ^ 2 =
        (e.x - c.x) ^ 2 + (e.y - c.y) ^ 2) ∧
      (∃ t : ℚ, 0 ≤ t ∧
        (getAttachmentPoint sq tm el target).x - c.x =
          t * (target.x - c.x) ∧
        (getAttachmentPoint sq tm el target).y - c.y =
          t * (target.y - c.y))) ∧
    (∀ c e rest, el.kind = ElementKind.circle (c :: e :: rest) →
      sq 0 = 0 → target = ⟨c.x, c.y⟩ →
      getAttachmentPoint sq tm el target =
        ⟨c.x + sq ((e.x - c.x) ^ 2 + (e.y - c.y) ^ 2), c.y⟩) ∧
    (el.isCircle = false →
      ((getRawElementBounds sq tm el).maxX =
          (getRawElementBounds sq tm el).minX ∨
        (getRawElementBounds sq tm el).maxY =
          (getRawElementBounds sq tm el).minY) →
      target ≠ getElementCenter sq tm el →
      getAttachmentPoint sq tm el target = getElementCenter sq tm el) := by
  refine ⟨?_, ?_, ?_⟩
  · intro c e rest hk hr1 hr2 hd1 hd2 hne
    have hcen := getElementCenter_circle sq tm el c e rest hk
    have hbnd := getRawElementBounds_circle sq tm el c e rest hk
    have hcirc : el.isCircle = true := by simp [Element.isCircle, hk]
    have hdxdy : ¬(target.x - c.x = 0 ∧ target.y - c.y = 0) := by
      rintro ⟨h1, h2⟩
      apply hne
      obtain ⟨tx, ty⟩ := target
      simp only [Pt.mk.injEq]
      constructor <;> [linarith; linarith]
    have hB : (target.x - c.x) ^ 2 + (target.y - c.y) ^ 2 ≠ 0 := by
      intro h0
      have hx2 : (target.x - c.x) ^ 2 = 0 := by
        nlinarith [sq_nonneg (target.x - c.x), sq_nonneg (target.y - c.y)]
      have hy2 : (target.y - c.y) ^ 2 = 0 := by
        nlinarith [sq_nonneg (target.x - c.x), sq_nonneg (target.y - c.y)]
      exact hdxdy ⟨pow_eq_zero_iff two_ne_zero |>.mp hx2,
        pow_eq_zero_iff two_ne_zero |>.mp hy2⟩
    have hdist : sq ((target.x - c.x) ^ 2 + (target.y - c.y) ^ 2) ≠ 0 := by
      intro h0
      rw [h0, mul_zero] at hd1
      exact hB hd1.symm
    unfold getAttachmentPoint
    rw [hbnd, hcen]
    dsimp only
    rw [if_pos hcirc, if_neg hdist]
    have hrad :
        (c.x + sq ((e.x - c.x) ^ 2 + (e.y - c.y) ^ 2) -
            (c.x - sq ((e.x - c.x) ^ 2 + (e.y - c.y) ^ 2))) / 2 =
          sq ((e.x - c.x) ^ 2 + (e.y - c.y) ^ 2) := by ring
    rw [hrad]
    constructor
    · have h1 :
          (c.x + (target.x - c.x) /
                sq ((target.x - c.x) ^ 2 + (target.y - c.y) ^ 2) *
                sq ((e.x - c.x) ^ 2 + (e.y - c.y) ^ 2) - c.x) ^ 2 +
            (c.y + (target.y - c.y) /
                sq ((target.x - c.x) ^ 2 + (target.y - c.y) ^ 2) *
                sq ((e.x - c.x) ^ 2 + (e.y - c.y) ^ 2) - c.y) ^ 2 =
          (sq ((e.x - c.x) ^ 2 + (e.y - c.y) ^ 2) *
              sq ((e.x - c.x) ^ 2 + (e.y - c.y) ^ 2)) *
            (((target.x - c.x) ^ 2 + (target.y - c.y) ^ 2) /
              (sq ((target.x - c.x) ^ 2 + (target.y - c.y) ^ 2) *
                sq ((target.x - c.x) ^ 2 + (target.y - c.y) ^ 2))) := by
        field_simp
        ring
      rw [h1, hr1, hd1, div_self hB, mul_one]
    · refine ⟨sq ((e.x - c.x) ^ 2 + (e.y - c.y) ^ 2) /
        sq ((target.x - c.x) ^ 2 + (target.y - c.y) ^ 2),
        div_nonneg hr2 hd2, by ring, by ring⟩
  · intro c e rest hk hz htc
    have hcen := getElementCenter_circle sq tm el c e rest hk
    have hbnd := getRawElementBounds_circle sq tm el c e rest hk
    have hcirc : el.isCircle = true := by simp [Element.isCircle, hk]
    subst htc
    unfold getAttachmentPoint
    rw [hbnd, hcen]
    dsimp only
    rw [if_pos hcirc]
    have hz2 : ((⟨c.x, c.y⟩ : Pt).x - c.x) ^ 2 +
        ((⟨c.x, c.y⟩ : Pt).y - c.y) ^ 2 = 0 := by
      dsimp only
      ring
    rw [hz2, if_pos hz]
    rw [Pt.mk.injEq]
    constructor
    · ring
    · rfl
  · intro hnc hdeg hne
    have hd : ¬(target.x - (getElementCenter sq tm el).x = 0 ∧
        target.y - (getElementCenter sq tm el).y = 0) := by
      rintro ⟨h1, h2⟩
      apply hne
      obtain ⟨tx, ty⟩ := target
      have he : getElementCenter sq tm el =
          ⟨(getElementCenter sq tm el).x, (getElementCenter sq tm el).y⟩ :=
        rfl
      rw [he, Pt.mk.injEq]
      constructor <;> [linarith; linarith]
    unfold getAttachmentPoint
    rw [if_neg (by rw [hnc]; exact Bool.false_ne_true)]
    dsimp only
    rw [if_neg hd]
    rw [if_pos ?hdeg2]
    case hdeg2 =>
      rcases hdeg with h | h
      · exact Or.inl (by rw [h]; ring)
      · exact Or.inr (by rw [h]; ring)

/-- Witness for the amended C6: circle centered (0,0) through (10,0),
target (100,0) (the spec's example), the same circle with target at its
center, and the flat rectangle with a target distinct from its center. -/
theorem getAttachmentPoint_amended_witness :
    ((((getAttachmentPoint ratSqrt tmZero circleTen ⟨100, 0⟩).x - 0) ^ 2 +
        ((getAttachmentPoint ratSqrt tmZero circleTen ⟨100, 0⟩).y - 0) ^ 2 =
      ((10 : ℚ) - 0) ^ 2 + ((0 : ℚ) - 0) ^ 2) ∧
      (∃ t : ℚ, 0 ≤ t ∧
        (getAttachmentPoint ratSqrt tmZero circleTen ⟨100, 0⟩).x - 0 =
          t * ((100 : ℚ) - 0) ∧
        (getAttachmentPoint ratSqrt tmZero circleTen ⟨100, 0⟩).y - 0 =
          t * ((0 : ℚ) - 0))) ∧
    getAttachmentPoint ratSqrt tmZero circleTen ⟨0, 0⟩ =
      ⟨0 + ratSqrt (((10 : ℚ) - 0) ^ 2 + ((0 : ℚ) - 0) ^ 2), 0⟩ ∧
    getAttachmentPoint ratSqrt tmZero rectFlat ⟨7, 0⟩ =
      getElementCenter ratSqrt tmZero rectFlat := by
  refine ⟨?_, ?_, ?_⟩
  · exact (getAttachmentPoint_amended ratSqrt tmZero circleTen ⟨100, 0⟩).1
      ⟨0, 0⟩ ⟨10, 0⟩ [] rfl (by norm_num [ratSqrt])
      (by norm_num [ratSqrt]) (by norm_num [ratSqrt])
      (by norm_num [ratSqrt]) (by decide)
  · exact (getAttachmentPoint_amended ratSqrt tmZero circleTen
      ⟨0, 0⟩).2.1 ⟨0, 0⟩ ⟨10, 0⟩ [] rfl (by norm_num [ratSqrt]) rfl
  · exact (getAttachmentPoint_amended ratSqrt tmZero rectFlat
      ⟨7, 0⟩).2.2 (by decide)
      (Or.inr (by norm_num [getRawElementBounds, rectFlat, Element.points,
        pointsBounds]))
      (by norm_num [getElementCenter, getRawElementBounds, rectFlat,
        Element.points, pointsBounds])

/-! ### C2 development, stage 1: the number-token scanner -/

theorem countDigits_cons (c : Char) (s : List Char) :
    countDigits (c :: s) =
      if isDigitCh c then countDigits s + 1 else 0 := by
  unfold countDigits
  by_cases h : isDigitCh c <;> simp [List.takeWhile_cons, h]

theorem countDigits_le_length (s : List Char) : countDigits s ≤ s.length :=
  (List.takeWhile_sublist _).length_le

theorem countDigits_append (s t : List Char) (hb : scanBoundary t) :
    countDigits (s ++ t) = countDigits s := by
  induction s with
  | nil =>
      simp only [List.nil_append]
      cases t with
      | nil => rfl
      | cons c rest =>
          have h := hb c (by simp)
          rw [countDigits_cons, if_neg (by simp [h.1])]
          rfl
  | cons c s2 ih =>
      rw [List.cons_append, countDigits_cons, countDigits_cons, ih]

theorem char_not_digit_of_alpha {c : Char} (h : isAlphaCh c = true) :
    c ≠ '-' ∧ isDigitCh c = false ∧ c ≠ '.' := by
  unfold isAlphaCh isUpperCh isLowerCh at h
  simp only [Bool.or_eq_true, Bool.and_eq_true, decide_eq_true_eq] at h
  refine ⟨?_, ?_, ?_⟩
  · rintro rfl
    rcases h with ⟨h1, h2⟩ | ⟨h1, h2⟩ <;> revert h1 <;> decide
  · unfold isDigitCh
    rw [Bool.and_eq_false_iff]
    rcases h with ⟨h1, h2⟩ | ⟨h1, h2⟩
    · right
      rw [decide_eq_false_iff_not]
      intro hc
      exact absurd (le_trans h1 hc) (by decide)
    · right
      rw [decide_eq_false_iff_not]
      intro hc
      exact absurd (le_trans h1 hc) (by decide)
  · rintro rfl
    rcases h with ⟨h1, h2⟩ | ⟨h1, h2⟩ <;> revert h1 <;> decide

theorem char_not_digit_of_ws {c : Char} (h : isWsCh c = true) :
    c ≠ '-' ∧ isDigitCh c = false ∧ c ≠ '.' := by
  unfold isWsCh at h
  simp only [Bool.or_eq_true, decide_eq_true_eq] at h
  rcases h with ((h | h) | h) | h <;> subst h <;>
    exact ⟨by decide, by decide, by decide⟩

theorem scanBoundary_of_alphaHead {t : List Char} (h : alphaHead t) :
    scanBoundary t := by
  intro c hc
  have h2 := char_not_digit_of_alpha (h c hc)
  exact ⟨h2.2.1, h2.2.2⟩

theorem numPartLen_append (s t : List Char) (hb : scanBoundary t) :
    numPartLen (s ++ t) = numPartLen s := by
  unfold numPartLen
  dsimp only
  rw [countDigits_append s t hb]
  have hle := countDigits_le_length s
  rw [List.drop_append_of_le_length hle]
  cases hcase : s.drop (countDigits s) with
  | nil =>
      simp only [List.nil_append]
      cases t with
      | nil => rfl
      | cons c rest =>
          have h := hb c (by simp)
          simp only [List.head?_cons, List.head?_nil]
          rw [if_neg (by simp [h.2])]
          simp
  | cons c s2 =>
      simp only [List.cons_append, List.head?_cons, List.tail_cons]
      by_cases hc : c = '.'
      · subst hc
        rw [countDigits_append s2 t hb]
      · rw [if_neg (by simp [hc])]
        simp [hc]

theorem numPartLen_le {s : List Char} {n : ℕ} (h : numPartLen s = some n) :
    n ≤ s.length := by
  unfold numPartLen at h
  dsimp only at h
  have hle := countDigits_le_length s
  cases hcase : s.drop (countDigits s) with
  | nil =>
      rw [hcase] at h
      simp only [List.head?_nil] at h
      rw [if_neg (by simp)] at h
      split_ifs at h <;> simp_all
  | cons c s2 =>
      rw [hcase] at h
      have hlen : s.length = countDigits s + s2.length + 1 := by
        have h2 := congrArg List.length hcase
        rw [List.length_drop] at h2
        simp only [List.length_cons] at h2
        omega
      simp only [List.head?_cons, List.tail_cons] at h
      have hle2 := countDigits_le_length s2
      by_cases hc : c = '.'
      · rw [if_pos (by simp [hc])] at h
        split_ifs at h <;> simp_all <;> omega
      · rw [if_neg (by simp [hc])] at h
        split_ifs at h <;> simp_all <;> omega

theorem numTokenLen_cons_append (c : Char) (s2 t : List Char)
    (hb : scanBoundary t) :
    numTokenLen ((c :: s2) ++ t) = numTokenLen (c :: s2) := by
  unfold numTokenLen
  simp only [List.cons_append, List.head?_cons, List.tail_cons]
  by_cases hc : c = '-'
  · rw [if_pos (by rw [hc]), if_pos (by rw [hc])]
    rw [numPartLen_append s2 t hb]
  · rw [if_neg (by simpa using hc), if_neg (by simpa using hc)]
    exact numPartLen_append (c :: s2) t hb

theorem numTokenLen_le {s : List Char} {n : ℕ}
    (h : numTokenLen s = some n) : n ≤ s.length := by
  unfold numTokenLen at h
  split_ifs at h with h1
  · rcases Option.map_eq_some'.mp h with ⟨m, hm, rfl⟩
    have := numPartLen_le hm
    cases s with
    | nil => simp at h1
    | cons c s2 => simp at this ⊢; omega
  · exact numPartLen_le h

theorem scanTokens_cons_none {c : Char} {s : List Char}
    (h : numTokenLen (c :: s) = none) :
    scanTokens (c :: s) = scanTokens s := by
  rw [scanTokens]
  split
  · simp_all
  · rfl

theorem scanTokens_cons_some {c : Char} {s : List Char} {n : ℕ}
    (h : numTokenLen (c :: s) = some n) :
    scanTokens (c :: s) =
      (c :: s).take n :: scanTokens ((c :: s).drop n) := by
  rw [scanTokens]
  split
  · simp_all
  · simp_all

theorem scanTokens_append (t : List Char) (hb : scanBoundary t) :
    ∀ s, scanTokens (s ++ t) = scanTokens s ++ scanTokens t := by
  have main : ∀ (nn : ℕ) (s : List Char), s.length ≤ nn →
      scanTokens (s ++ t) = scanTokens s ++ scanTokens t := by
    intro nn
    induction nn with
    | zero =>
        intro s hs
        have hnil : s = [] := List.eq_nil_of_length_eq_zero (by omega)
        subst hnil
        simp [scanTokens]
    | succ m ih =>
        intro s hs
        cases s with
        | nil => simp [scanTokens]
        | cons c s2 =>
            have htok := numTokenLen_cons_append c s2 t hb
            cases hn : numTokenLen (c :: s2) with
            | none =>
                rw [List.cons_append,
                  scanTokens_cons_none (by rw [← List.cons_append, htok, hn]),
                  scanTokens_cons_none hn]
                apply ih s2
                simp only [List.length_cons] at hs
                omega
            | some n =>
                have hpos := numTokenLen_pos hn
                have hle := numTokenLen_le hn
                rw [List.cons_append,
                  scanTokens_cons_some (by rw [← List.cons_append, htok, hn])]
                rw [← List.cons_append]
                rw [List.take_append_of_le_length hle]
                rw [List.drop_append_of_le_length hle]
                rw [scanTokens_cons_some hn]
                rw [List.cons_append]
                congr 1
                apply ih
                simp only [List.length_drop, List.length_cons] at hs ⊢
                omega
  intro s
  exact main s.length s le_rfl

/-! ### C2 development, stage 2: decimal digits and serialization -/

theorem countDigits_append_nondigit (s t : List Char)
    (hb : ∀ c ∈ t.head?, isDigitCh c = false) :
    countDigits (s ++ t) = countDigits s := by
  induction s with
  | nil =>
      simp only [List.nil_append]
      cases t with
      | nil => rfl
      | cons c rest =>
          have h := hb c (by simp)
          rw [countDigits_cons, if_neg (by simp [h])]
          rfl
  | cons c s2 ih =>
      rw [List.cons_append, countDigits_cons, countDigits_cons, ih]

theorem takeWhile_append_all {p : Char → Bool} (a b : List Char)
    (h : ∀ c ∈ a, p c = true) :
    (a ++ b).takeWhile p = a ++ b.takeWhile p := by
  induction a with
  | nil => simp
  | cons c a2 ih =>
      rw [List.cons_append, List.takeWhile_cons, if_pos (h c (by simp)),
        ih (fun x hx => h x (by simp [hx]))]
      simp

theorem countDigits_all (d : List Char) (h : ∀ c ∈ d, isDigitCh c = true) :
    countDigits d = d.length := by
  induction d with
  | nil => rfl
  | cons c d2 ih =>
      rw [countDigits_cons, if_pos (h c (by simp)),
        ih (fun c hc => h c (by simp [hc]))]
      rfl

theorem digit_not_special {c : Char} (h : isDigitCh c = true) :
    isAlphaCh c = false ∧ c ≠ '.' ∧ c ≠ '-' ∧ isWsCh c = false := by
  unfold isDigitCh at h
  simp only [Bool.and_eq_true, decide_eq_true_eq] at h
  refine ⟨?_, ?_, ?_, ?_⟩
  · unfold isAlphaCh isUpperCh isLowerCh
    rw [Bool.or_eq_false_iff]
    constructor <;> rw [Bool.and_eq_false_iff] <;> left <;>
      rw [decide_eq_false_iff_not] <;> intro hc <;>
      exact absurd (le_trans hc h.2) (by decide)
  · rintro rfl
    exact absurd h.1 (by decide)
  · rintro rfl
    exact absurd h.1 (by decide)
  · unfold isWsCh
    simp only [Bool.or_eq_false_iff, decide_eq_false_iff_not]
    refine ⟨⟨⟨?_, ?_⟩, ?_⟩, ?_⟩ <;> rintro rfl <;>
      first
        | exact absurd h.1 (by decide)
        | exact absurd h.2 (by decide)

theorem digitChar_isDigit (m : ℕ) (hm : m < 10) :
    isDigitCh (Char.ofNat ('0'.toNat + m)) = true := by
  interval_cases m <;> decide

theorem digitVal_digitChar (m : ℕ) (hm : m < 10) :
    digitVal (Char.ofNat ('0'.toNat + m)) = m := by
  interval_cases m <;> decide

theorem natDigits_all_digits (n : ℕ) :
    ∀ c ∈ natDigits n, isDigitCh c = true := by
  induction n using Nat.strong_induction_on with
  | _ n ih =>
      rw [natDigits]
      split
      · intro c hc
        simp only [List.mem_singleton] at hc
        subst hc
        exact digitChar_isDigit n (by omega)
      · intro c hc
        rcases List.mem_append.mp hc with h1 | h2
        · exact ih (n / 10) (Nat.div_lt_self (by omega) (by omega)) c h1
        · simp only [List.mem_singleton] at h2
          subst h2
          exact digitChar_isDigit (n % 10) (Nat.mod_lt n (by omega))

theorem natDigits_ne_nil (n : ℕ) : natDigits n ≠ [] := by
  rw [natDigits]
  split <;> simp

theorem digitsVal_go (b : List Char) : ∀ (v : ℕ),
    b.foldl (fun acc c => 10 * acc + digitVal c) v =
      v * 10 ^ b.length + digitsVal b := by
  induction b with
  | nil => intro v; simp [digitsVal]
  | cons c b2 ih =>
      intro v
      rw [List.foldl_cons, ih (10 * v + digitVal c)]
      have h2 : digitsVal (c :: b2) = digitVal c * 10 ^ b2.length +
          digitsVal b2 := by
        unfold digitsVal
        rw [List.foldl_cons]
        have h3 := ih (10 * 0 + digitVal c)
        unfold digitsVal at h3
        rw [h3]
        ring_nf
      rw [h2]
      simp only [List.length_cons]
      ring

theorem digitsVal_append (a b : List Char) :
    digitsVal (a ++ b) = digitsVal a * 10 ^ b.length + digitsVal b := by
  unfold digitsVal
  rw [List.foldl_append]
  exact digitsVal_go b _

theorem digitsVal_natDigits (n : ℕ) : digitsVal (natDigits n) = n := by
  induction n using Nat.strong_induction_on with
  | _ n ih =>
      rw [natDigits]
      split
      · unfold digitsVal
        simp only [List.foldl_cons, List.foldl_nil]
        rw [digitVal_digitChar n (by omega)]
        omega
      · rename_i h
        rw [digitsVal_append]
        rw [ih (n / 10) (Nat.div_lt_self (by omega) (by omega))]
        unfold digitsVal
        simp only [List.foldl_cons, List.foldl_nil, List.length_cons,
          List.length_nil]
        rw [digitVal_digitChar (n % 10) (Nat.mod_lt n (by omega))]
        ring_nf
        omega

theorem natDigits_length_le (k : ℕ) (hk : 1 ≤ k) :
    ∀ n, n < 10 ^ k → (natDigits n).length ≤ k := by
  induction k with
  | zero => omega
  | succ k2 ih =>
      intro n hn
      rw [natDigits]
      split
      · simp only [List.length_cons, List.length_nil]
        omega
      · rename_i h
        have hk2 : 1 ≤ k2 := by
          by_contra hc
          have hk0 : k2 = 0 := by omega
          subst hk0
          simp at hn
          omega
        rw [List.length_append]
        have hq : n / 10 < 10 ^ k2 := by
          rw [pow_succ] at hn
          omega
        have := ih hk2 (n / 10) hq
        simp only [List.length_cons, List.length_nil]
        omega

theorem digitsVal_replicate_zero (k : ℕ) :
    digitsVal (List.replicate k '0') = 0 := by
  induction k with
  | zero => rfl
  | succ k2 ih =>
      rw [List.replicate_succ]
      have h2 : digitsVal ('0' :: List.replicate k2 '0') =
          digitVal '0' * 10 ^ k2 + digitsVal (List.replicate k2 '0') := by
        have := digitsVal_append ['0'] (List.replicate k2 '0')
        simpa [digitsVal, List.length_replicate] using this
      rw [h2, ih]
      norm_num [digitVal]

theorem digitsVal_padZeros (k : ℕ) (s : List Char) :
    digitsVal (padZeros k s) = digitsVal s := by
  unfold padZeros
  rw [digitsVal_append, digitsVal_replicate_zero]
  ring

theorem padZeros_all_digits (k : ℕ) (s : List Char)
    (h : ∀ c ∈ s, isDigitCh c = true) :
    ∀ c ∈ padZeros k s, isDigitCh c = true := by
  intro c hc
  unfold padZeros at hc
  rcases List.mem_append.mp hc with h1 | h2
  · have := List.eq_of_mem_replicate h1
    subst this
    decide
  · exact h c h2

theorem padZeros_length (k : ℕ) (s : List Char) (h : s.length ≤ k) :
    (padZeros k s).length = k := by
  unfold padZeros
  rw [List.length_append, List.length_replicate]
  omega

theorem padZeros_ne_nil (k : ℕ) (s : List Char) (hs : s ≠ []) :
    padZeros k s ≠ [] := by
  unfold padZeros
  intro hc
  rcases List.append_eq_nil.mp hc with ⟨_, h2⟩
  exact hs h2

theorem takeWhile_all {p : Char → Bool} (d : List Char)
    (h : ∀ c ∈ d, p c = true) : d.takeWhile p = d := by
  induction d with
  | nil => rfl
  | cons c d2 ih =>
      rw [List.takeWhile_cons, if_pos (h c (by simp)),
        ih (fun x hx => h x (by simp [hx]))]

theorem factorCount_pow_mul (p : ℕ) (hp : 2 ≤ p) (b : ℕ) (hb : b ≠ 0)
    (hnd : ¬ p ∣ b) : ∀ a, factorCount p (p ^ a * b) = a := by
  intro a
  induction a with
  | zero =>
      rw [factorCount, dif_neg]
      simp only [pow_zero, one_mul]
      rintro ⟨_, hdvd, _⟩
      exact hnd hdvd
  | succ a2 ih =>
      have hpos : p ^ (a2 + 1) * b ≠ 0 :=
        Nat.mul_ne_zero (pow_ne_zero _ (by omega)) hb
      rw [factorCount, dif_pos ⟨hp, ⟨by
        rw [pow_succ]
        exact Dvd.intro_left (p ^ a2 * b) (by ring), hpos⟩⟩]
      have hdiv : p ^ (a2 + 1) * b / p = p ^ a2 * b := by
        rw [pow_succ]
        rw [show p ^ a2 * p * b = p * (p ^ a2 * b) by ring]
        exact Nat.mul_div_cancel_left _ (by omega)
      rw [hdiv, ih]

theorem eq_two_five_pow (K : ℕ) :
    ∀ d, d ≠ 0 → d ∣ 10 ^ K → ∃ a b, d = 2 ^ a * 5 ^ b := by
  intro d
  induction d using Nat.strong_induction_on with
  | _ d ih =>
      intro hd0 hdvd
      by_cases h2 : 2 ∣ d
      · obtain ⟨d2, rfl⟩ := h2
        have hd2 : d2 ≠ 0 := by
          rintro rfl
          simp at hd0
        obtain ⟨a, b, rfl⟩ := ih d2 (by omega) hd2
          (dvd_trans (Dvd.intro_left 2 rfl) hdvd)
        exact ⟨a + 1, b, by ring⟩
      · by_cases h5 : 5 ∣ d
        · obtain ⟨d2, rfl⟩ := h5
          have hd2 : d2 ≠ 0 := by
            rintro rfl
            simp at hd0
          obtain ⟨a, b, rfl⟩ := ih d2 (by omega) hd2
            (dvd_trans (Dvd.intro_left 5 rfl) hdvd)
          exact ⟨a, b + 1, by ring⟩
        · have hc2 : Nat.Coprime d 2 :=
            ((Nat.prime_two.coprime_iff_not_dvd).mpr h2).symm
          have hc5 : Nat.Coprime d 5 :=
            ((Nat.prime_five.coprime_iff_not_dvd).mpr h5).symm
          have h10 : Nat.Coprime d 10 := by
            have := Nat.Coprime.mul_right hc2 hc5
            simpa using this
          have hK : Nat.Coprime d (10 ^ K) := Nat.Coprime.pow_right K h10
          have hd1 : d = 1 := Nat.Coprime.eq_one_of_dvd hK hdvd
          exact ⟨0, 0, by simp [hd1]⟩

theorem dvd_ten_pow_decExp (d : ℕ) (hd : d ≠ 0) (h : ∃ k, d ∣ 10 ^ k) :
    d ∣ 10 ^ decExp d := by
  obtain ⟨K, hK⟩ := h
  obtain ⟨a, b, rfl⟩ := eq_two_five_pow K d hd hK
  have hfc2 : factorCount 2 (2 ^ a * 5 ^ b) = a :=
    factorCount_pow_mul 2 (by omega) (5 ^ b) (pow_ne_zero b (by omega))
      (fun hc => by
        have := Nat.Prime.dvd_of_dvd_pow Nat.prime_two hc
        omega) a
  have hfc5 : factorCount 5 (2 ^ a * 5 ^ b) = b := by
    rw [mul_comm]
    exact factorCount_pow_mul 5 (by omega) (2 ^ a)
      (pow_ne_zero a (by omega))
      (fun hc => by
        have := Nat.Prime.dvd_of_dvd_pow Nat.prime_five hc
        omega) b
  unfold decExp
  rw [hfc2, hfc5]
  rw [show (10 : ℕ) = 2 * 5 from rfl, mul_pow]
  exact mul_dvd_mul (pow_dvd_pow 2 (le_max_left a b))
    (pow_dvd_pow 5 (le_max_right a b))

theorem DecQ_good {q : ℚ} (h : DecQ q) :
    (q.den : ℕ) ∣ 10 ^ decExp q.den :=
  dvd_ten_pow_decExp q.den q.pos.ne' h

theorem decStr_m_eq (q : ℚ) (h0 : 0 ≤ q)
    (hg : (q.den : ℕ) ∣ 10 ^ decExp q.den) :
    ((q.num.toNat * 10 ^ decExp q.den / q.den : ℕ) : ℚ) =
      q * 10 ^ decExp q.den := by
  have hden : (q.den : ℚ) ≠ 0 := by
    exact_mod_cast q.pos.ne'
  have hdvd : q.den ∣ q.num.toNat * 10 ^ decExp q.den :=
    Dvd.dvd.mul_left hg _
  have hmn := Nat.div_mul_cancel hdvd
  have hcast := congrArg (fun n : ℕ => (n : ℚ)) hmn
  push_cast at hcast
  have hnum : (q.num.toNat : ℚ) = (q.num : ℚ) := by
    have := Int.toNat_of_nonneg (Rat.num_nonneg.mpr h0)
    exact_mod_cast congrArg (fun z : ℤ => (z : ℚ)) this
  rw [hnum] at hcast
  have hq : (q.num : ℚ) = q * q.den :=
    (div_eq_iff hden).mp (Rat.num_div_den q)
  rw [hq] at hcast
  apply mul_right_cancel₀ hden
  rw [hcast]
  ring

theorem parseUnsigned_digits (d : List Char)
    (hd : ∀ c ∈ d, isDigitCh c = true) :
    parseUnsigned d = (digitsVal d : ℚ) := by
  unfold parseUnsigned
  dsimp only
  rw [takeWhile_all d hd, List.drop_length]

theorem parseUnsigned_frac (d1 d2 : List Char)
    (hd1 : ∀ c ∈ d1, isDigitCh c = true)
    (hd2 : ∀ c ∈ d2, isDigitCh c = true) :
    parseUnsigned (d1 ++ '.' :: d2) =
      (digitsVal d1 : ℚ) + (digitsVal d2 : ℚ) / 10 ^ d2.length := by
  unfold parseUnsigned
  dsimp only
  have ht : (d1 ++ '.' :: d2).takeWhile isDigitCh = d1 := by
    rw [takeWhile_append_all d1 ('.' :: d2) hd1]
    rw [List.takeWhile_cons, if_neg (by decide)]
    simp
  rw [ht, List.drop_left]
  split
  · rename_i frac heq
    injection heq with h1 h2
    subst h2
    rw [takeWhile_all d2 hd2]
  · rename_i hx
    exact absurd rfl (hx d2)

/-! ### C2 development, stage 3: the serialized decimal string parses and
tokenizes back to the value it encodes -/

theorem numTokenLen_none_of_head (c : Char) (rest : List Char)
    (h1 : c ≠ '-') (h2 : isDigitCh c = false) (h3 : c ≠ '.') :
    numTokenLen (c :: rest) = none := by
  unfold numTokenLen
  rw [if_neg (by simp [h1])]
  have hcd : countDigits (c :: rest) = 0 := by
    rw [countDigits_cons, if_neg (by simp [h2])]
  unfold numPartLen
  dsimp only
  rw [hcd]
  simp only [List.drop_zero, List.head?_cons]
  rw [if_neg (by simp [h3]), if_neg (by omega)]

theorem scanTokens_cons_skip {c : Char} {rest : List Char}
    (h1 : c ≠ '-') (h2 : isDigitCh c = false) (h3 : c ≠ '.') :
    scanTokens (c :: rest) = scanTokens rest :=
  scanTokens_cons_none (numTokenLen_none_of_head c rest h1 h2 h3)

theorem scanTokens_ws_nil (s : List Char)
    (h : ∀ c ∈ s, isWsCh c = true) : scanTokens s = [] := by
  induction s with
  | nil => simp [scanTokens]
  | cons c rest ih =>
      have hc := char_not_digit_of_ws (h c (by simp))
      rw [scanTokens_cons_skip hc.1 hc.2.1 hc.2.2]
      exact ih (fun x hx => h x (by simp [hx]))

theorem decStrNN_shape (q : ℚ) :
    (decStrNN q ≠ [] ∧ ∀ c ∈ decStrNN q, isDigitCh c = true) ∨
    (∃ d1 d2, decStrNN q = d1 ++ '.' :: d2 ∧ d1 ≠ [] ∧ d2 ≠ [] ∧
      (∀ c ∈ d1, isDigitCh c = true) ∧ (∀ c ∈ d2, isDigitCh c = true)) := by
  unfold decStrNN
  dsimp only
  split_ifs with hk
  · exact Or.inl ⟨natDigits_ne_nil _, natDigits_all_digits _⟩
  · exact Or.inr ⟨_, _, rfl, natDigits_ne_nil _,
      padZeros_ne_nil _ _ (natDigits_ne_nil _), natDigits_all_digits _,
      padZeros_all_digits _ _ (natDigits_all_digits _)⟩

theorem numPartLen_of_digits (d : List Char) (hne : d ≠ [])
    (hd : ∀ c ∈ d, isDigitCh c = true) :
    numPartLen d = some d.length := by
  unfold numPartLen
  dsimp only
  rw [countDigits_all d hd, List.drop_length]
  simp only [List.head?_nil]
  rw [if_neg (by simp)]
  rw [if_pos (by cases d with | nil => exact absurd rfl hne
                              | cons c r => simp)]

theorem numPartLen_of_frac (d1 d2 : List Char) (hd2ne : d2 ≠ [])
    (hd1 : ∀ c ∈ d1, isDigitCh c = true)
    (hd2 : ∀ c ∈ d2, isDigitCh c = true) :
    numPartLen (d1 ++ '.' :: d2) = some (d1 ++ '.' :: d2).length := by
  unfold numPartLen
  dsimp only
  have hcd : countDigits (d1 ++ '.' :: d2) = d1.length := by
    rw [countDigits_append_nondigit d1 ('.' :: d2) (by simp; decide)]
    exact countDigits_all d1 hd1
  rw [hcd, List.drop_left]
  have hdot : ('.' :: d2).head? = some '.' := rfl
  rw [if_pos hdot, List.tail_cons]
  rw [countDigits_all d2 hd2]
  rw [if_pos (by cases d2 with | nil => exact absurd rfl hd2ne
                               | cons c r => simp)]
  simp only [List.length_append, List.length_cons]
  congr 1
  omega

theorem numPartLen_decStrNN (q : ℚ) :
    numPartLen (decStrNN q) = some (decStrNN q).length := by
  rcases decStrNN_shape q with ⟨hne, hd⟩ | ⟨d1, d2, heq, h1, h2, hd1, hd2⟩
  · exact numPartLen_of_digits _ hne hd
  · rw [heq]
    exact numPartLen_of_frac d1 d2 h2 hd1 hd2

theorem decStrNN_ne_nil (q : ℚ) : decStrNN q ≠ [] := by
  rcases decStrNN_shape q with ⟨hne, _⟩ | ⟨d1, d2, heq, _, _, _, _⟩
  · exact hne
  · rw [heq]
    simp

theorem decStrNN_head_digit (q : ℚ) :
    ∀ c ∈ (decStrNN q).head?, isDigitCh c = true := by
  rcases decStrNN_shape q with ⟨hne, hd⟩ | ⟨d1, d2, heq, h1, h2, hd1, hd2⟩
  · intro c hc
    cases hs : decStrNN q with
    | nil => exact absurd hs hne
    | cons a r =>
        rw [hs] at hc
        simp only [List.head?_cons, Option.mem_def, Option.some_inj] at hc
        subst hc
        exact hd a (by rw [hs]; simp)
  · intro c hc
    rw [heq] at hc
    cases d1 with
    | nil => exact absurd rfl h1
    | cons a r =>
        simp only [List.cons_append, List.head?_cons, Option.mem_def,
          Option.some_inj] at hc
        subst hc
        exact hd1 a (by simp)

theorem numTokenLen_decStrNN (q : ℚ) :
    numTokenLen (decStrNN q) = some (decStrNN q).length := by
  unfold numTokenLen
  rw [if_neg, numPartLen_decStrNN]
  intro hc
  have hd := decStrNN_head_digit q '-' (by rw [hc]; rfl)
  exact absurd hd (by decide)

theorem numTokenLen_decStr (q : ℚ) :
    numTokenLen (decStr q) = some (decStr q).length := by
  unfold decStr
  split_ifs with hq
  · unfold numTokenLen
    simp only [List.head?_cons, List.tail_cons, if_pos rfl]
    rw [numPartLen_decStrNN]
    simp
  · exact numTokenLen_decStrNN q

theorem decStr_ne_nil (q : ℚ) : decStr q ≠ [] := by
  unfold decStr
  split_ifs with hq
  · simp
  · exact decStrNN_ne_nil q

theorem parseUnsigned_decStrNN (q : ℚ) (h0 : 0 ≤ q)
    (hg : (q.den : ℕ) ∣ 10 ^ decExp q.den) :
    parseUnsigned (decStrNN q) = q := by
  have hm : ((q.num.toNat * 10 ^ decExp q.den / q.den : ℕ) : ℚ) =
      q * 10 ^ decExp q.den := decStr_m_eq q h0 hg
  unfold decStrNN
  dsimp only
  split_ifs with hk
  · rw [parseUnsigned_digits _ (natDigits_all_digits _), digitsVal_natDigits]
    rw [hm, hk]
    simp
  · rw [parseUnsigned_frac _ _ (natDigits_all_digits _)
      (padZeros_all_digits _ _ (natDigits_all_digits _))]
    rw [digitsVal_natDigits, digitsVal_padZeros, digitsVal_natDigits]
    have hklen : (natDigits ((q.num.toNat * 10 ^ decExp q.den / q.den) %
        10 ^ decExp q.den)).length ≤ decExp q.den :=
      natDigits_length_le _ (by omega) _
        (Nat.mod_lt _ (Nat.pos_pow_of_pos _ (by omega)))
    rw [padZeros_length _ _ hklen]
    set k := decExp q.den
    set m := q.num.toNat * 10 ^ k / q.den
    have h10 : ((10 : ℚ) ^ k) ≠ 0 := by positivity
    have hdm : (10 ^ k : ℚ) * ((m / 10 ^ k : ℕ) : ℚ) +
        ((m % 10 ^ k : ℕ) : ℚ) = (m : ℚ) := by
      exact_mod_cast congrArg (fun n : ℕ => (n : ℚ))
        (Nat.div_add_mod m (10 ^ k))
    apply mul_right_cancel₀ h10
    rw [add_mul, div_mul_cancel₀ _ h10, ← hm, ← hdm]
    ring

theorem parseNum_not_dash (t : List Char)
    (h : ∀ c ∈ t.head?, c ≠ '-') : parseNum t = parseUnsigned t := by
  unfold parseNum
  split
  · rename_i rest
    exact absurd rfl (h '-' rfl)
  · rfl

theorem parseNum_decStr (q : ℚ) (hq : DecQ q) :
    parseNum (decStr q) = q := by
  unfold decStr
  split_ifs with hneg
  · unfold parseNum
    split
    · rename_i rest heq
      injection heq with h1 h2
      subst h2
      have hd : DecQ (-q) := by
        obtain ⟨k, hk⟩ := hq
        exact ⟨k, by rw [Rat.neg_den]; exact hk⟩
      rw [parseUnsigned_decStrNN (-q) (by linarith) (DecQ_good hd)]
      ring
    · rename_i hx
      exact absurd rfl (hx (decStrNN (-q)))
  · rw [parseNum_not_dash]
    · exact parseUnsigned_decStrNN q (by linarith) (DecQ_good hq)
    · intro c hc
      have hd := decStrNN_head_digit q c hc
      exact (digit_not_special hd).2.2.1

/-! ### C2 development, stage 4: scanning a serialized argument list -/

theorem scanTokens_full_append (s t : List Char)
    (hs : numTokenLen s = some s.length) (hb : scanBoundary t) :
    scanTokens (s ++ t) = s :: scanTokens t := by
  cases s with
  | nil =>
      have := numTokenLen_pos hs
      simp at this
  | cons c s2 =>
      have htok : numTokenLen (c :: (s2 ++ t)) = some (c :: s2).length := by
        rw [← List.cons_append, numTokenLen_cons_append c s2 t hb, hs]
      rw [List.cons_append, scanTokens_cons_some htok, ← List.cons_append,
        List.take_left, List.drop_left]

theorem scanNums_decStr_append (q : ℚ) (t : List Char) (hq : DecQ q)
    (hb : scanBoundary t) :
    scanNums (decStr q ++ t) = q :: scanNums t := by
  unfold scanNums
  rw [scanTokens_full_append (decStr q) t (numTokenLen_decStr q) hb]
  rw [List.map_cons, parseNum_decStr q hq]

theorem sepJoin_nil : sepJoin [] = [] := rfl

theorem sepJoin_cons (a : JNum) (r : List JNum) :
    sepJoin (a :: r) = ' ' :: (serJNum a ++ sepJoin r) := by
  unfold sepJoin
  simp

theorem sepJoin_append (a b : List JNum) :
    sepJoin (a ++ b) = sepJoin a ++ sepJoin b := by
  unfold sepJoin
  simp

theorem jjoin_cons (a : JNum) (r : List JNum) :
    jjoin (a :: r) = serJNum a ++ sepJoin r := by
  induction r generalizing a with
  | nil => simp [jjoin, sepJoin]
  | cons b r2 ih =>
      rw [jjoin, ih b, sepJoin_cons]

theorem space_jjoin (r : List JNum) (h : r ≠ []) :
    ' ' :: jjoin r = sepJoin r := by
  cases r with
  | nil => exact absurd rfl h
  | cons a r2 => rw [jjoin_cons, sepJoin_cons]

theorem scanTokens_dropWhile_ws (s : List Char) :
    scanTokens (s.dropWhile isWsCh) = scanTokens s := by
  induction s with
  | nil => rfl
  | cons c rest ih =>
      rw [List.dropWhile_cons]
      split_ifs with hw
      · have hc := char_not_digit_of_ws hw
        rw [ih, scanTokens_cons_skip hc.1 hc.2.1 hc.2.2]
      · rfl

theorem scanBoundary_of_ws {t : List Char}
    (h : ∀ c ∈ t, isWsCh c = true) : scanBoundary t := by
  intro c hc
  cases t with
  | nil => simp at hc
  | cons a r =>
      simp only [List.head?_cons, Option.mem_def, Option.some_inj] at hc
      subst hc
      exact (char_not_digit_of_ws (h a (by simp))).2

theorem scanTokens_ws_suffix (a b : List Char)
    (h : ∀ c ∈ b, isWsCh c = true) :
    scanTokens (a ++ b) = scanTokens a := by
  rw [scanTokens_append b (scanBoundary_of_ws h) a, scanTokens_ws_nil b h]
  simp

theorem scanTokens_trimWs (s : List Char) :
    scanTokens (trimWs s) = scanTokens s := by
  unfold trimWs
  set s1 := s.dropWhile isWsCh with hs1
  have hsplit : s1 = (s1.reverse.dropWhile isWsCh).reverse ++
      (s1.reverse.takeWhile isWsCh).reverse := by
    have h1 : s1.reverse.takeWhile isWsCh ++ s1.reverse.dropWhile isWsCh =
        s1.reverse := List.takeWhile_append_dropWhile isWsCh s1.reverse
    have h2 := congrArg List.reverse h1
    rw [List.reverse_append, List.reverse_reverse] at h2
    exact h2.symm
  have hws : ∀ c ∈ (s1.reverse.takeWhile isWsCh).reverse,
      isWsCh c = true := by
    intro c hc
    rw [List.mem_reverse] at hc
    exact List.mem_takeWhile_imp hc
  calc scanTokens (s1.reverse.dropWhile isWsCh).reverse
      = scanTokens ((s1.reverse.dropWhile isWsCh).reverse ++
          (s1.reverse.takeWhile isWsCh).reverse) :=
        (scanTokens_ws_suffix _ _ hws).symm
    _ = scanTokens s1 := by rw [← hsplit]
    _ = scanTokens s := scanTokens_dropWhile_ws s

theorem scanNums_trimWs (s : List Char) : scanNums (trimWs s) = scanNums s := by
  unfold scanNums
  rw [scanTokens_trimWs]

theorem scanBoundary_sepJoin_append (jd : List JNum) (t : List Char)
    (hb : scanBoundary t) : scanBoundary (sepJoin jd ++ t) := by
  cases jd with
  | nil => simpa [sepJoin_nil] using hb
  | cons a r =>
      rw [sepJoin_cons]
      intro c hc
      simp only [List.cons_append, List.head?_cons, Option.mem_def,
        Option.some_inj] at hc
      subst hc
      exact ⟨by decide, by decide⟩

theorem scanNums_sepJoin_append (jd : List JNum)
    (h : ∀ q, JNum.num q ∈ jd → DecQ q) (t : List Char)
    (hb : scanBoundary t) :
    scanNums (sepJoin jd ++ t) = numsOf jd ++ scanNums t := by
  induction jd with
  | nil => simp [sepJoin_nil, numsOf]
  | cons a r ih =>
      have hr : ∀ q, JNum.num q ∈ r → DecQ q :=
        fun q hq => h q (by simp [hq])
      rw [sepJoin_cons]
      cases a with
      | num q =>
          have hq : DecQ q := h q (by simp)
          rw [List.cons_append, List.append_assoc]
          unfold scanNums
          rw [scanTokens_cons_skip (by decide) (by decide) (by decide)]
          have hb2 : scanBoundary (sepJoin r ++ t) :=
            scanBoundary_sepJoin_append r t hb
          rw [show serJNum (JNum.num q) = decStr q from rfl]
          rw [scanTokens_full_append (decStr q) _ (numTokenLen_decStr q) hb2]
          rw [List.map_cons, parseNum_decStr q hq]
          have := ih hr
          unfold scanNums at this
          rw [this]
          simp [numsOf]
      | nan =>
          rw [show serJNum JNum.nan = ['N', 'a', 'N'] from rfl]
          simp only [List.cons_append, List.append_assoc]
          unfold scanNums
          rw [scanTokens_cons_skip (by decide) (by decide) (by decide)]
          rw [scanTokens_cons_skip (by decide) (by decide) (by decide)]
          rw [scanTokens_cons_skip (by decide) (by decide) (by decide)]
          rw [scanTokens_cons_skip (by decide) (by decide) (by decide)]
          have := ih hr
          unfold scanNums at this
          rw [List.nil_append, this]
          simp [numsOf]
      | undef =>
          rw [show serJNum JNum.undef = [] from rfl]
          simp only [List.nil_append, List.cons_append]
          unfold scanNums
          rw [scanTokens_cons_skip (by decide) (by decide) (by decide)]
          have := ih hr
          unfold scanNums at this
          rw [this]
          simp [numsOf]

/-! ### C2 development, stage 5: terminating-decimal rationals are closed
under the arithmetic the transform performs -/

theorem DecQ_div_pow (n : ℤ) (k : ℕ) : DecQ ((n : ℚ) / 10 ^ k) := by
  have h := Rat.den_dvd n ((10 : ℤ) ^ k)
  rw [Rat.divInt_eq_div] at h
  have hc1 : (((10 : ℤ) ^ k : ℤ) : ℚ) = (10 : ℚ) ^ k := by
    push_cast
    ring
  rw [hc1] at h
  refine ⟨k, ?_⟩
  have hc2 : ((10 : ℤ)) ^ k = ((10 ^ k : ℕ) : ℤ) := by
    push_cast
    ring
  rw [hc2] at h
  exact_mod_cast h

theorem DecQ_elim {q : ℚ} (h : DecQ q) :
    ∃ (n : ℤ) (k : ℕ), q = (n : ℚ) / 10 ^ k := by
  obtain ⟨k, c, hc⟩ := h
  refine ⟨q.num * c, k, ?_⟩
  have hc0 : (c : ℚ) ≠ 0 := by
    intro h0
    have hcz : c = 0 := by exact_mod_cast h0
    subst hcz
    simp at hc
  have hden : (q.den : ℚ) ≠ 0 := by exact_mod_cast q.pos.ne'
  have h10 : ((10 : ℚ)) ^ k = (q.den : ℚ) * c := by exact_mod_cast hc
  rw [h10]
  push_cast
  rw [mul_div_mul_right _ _ hc0]
  exact (Rat.num_div_den q).symm

theorem DecQ_intCast (n : ℤ) : DecQ (n : ℚ) := by
  have h : (n : ℚ) = (n : ℚ) / 10 ^ 0 := by norm_num
  rw [h]
  exact DecQ_div_pow n 0

theorem DecQ_natCast (n : ℕ) : DecQ (n : ℚ) := by
  have h : ((n : ℕ) : ℚ) = ((n : ℤ) : ℚ) := by push_cast; ring
  rw [h]
  exact DecQ_intCast n

theorem DecQ_add {a b : ℚ} (ha : DecQ a) (hb : DecQ b) : DecQ (a + b) := by
  obtain ⟨n1, k1, rfl⟩ := DecQ_elim ha
  obtain ⟨n2, k2, rfl⟩ := DecQ_elim hb
  have h : (n1 : ℚ) / 10 ^ k1 + (n2 : ℚ) / 10 ^ k2 =
      ((n1 * 10 ^ k2 + n2 * 10 ^ k1 : ℤ) : ℚ) / 10 ^ (k1 + k2) := by
    have h1 : ((10 : ℚ)) ^ k1 ≠ 0 := by positivity
    have h2 : ((10 : ℚ)) ^ k2 ≠ 0 := by positivity
    rw [div_add_div _ _ h1 h2]
    push_cast
    rw [pow_add]
    ring
  rw [h]
  exact DecQ_div_pow _ _

theorem DecQ_mul {a b : ℚ} (ha : DecQ a) (hb : DecQ b) : DecQ (a * b) := by
  obtain ⟨n1, k1, rfl⟩ := DecQ_elim ha
  obtain ⟨n2, k2, rfl⟩ := DecQ_elim hb
  have h : (n1 : ℚ) / 10 ^ k1 * ((n2 : ℚ) / 10 ^ k2) =
      ((n1 * n2 : ℤ) : ℚ) / 10 ^ (k1 + k2) := by
    push_cast
    rw [pow_add]
    ring
  rw [h]
  exact DecQ_div_pow _ _

theorem DecQ_neg {a : ℚ} (ha : DecQ a) : DecQ (-a) := by
  obtain ⟨n1, k1, rfl⟩ := DecQ_elim ha
  have h : -((n1 : ℚ) / 10 ^ k1) = ((-n1 : ℤ) : ℚ) / 10 ^ k1 := by
    push_cast
    ring
  rw [h]
  exact DecQ_div_pow _ _

theorem DecQ_abs {a : ℚ} (ha : DecQ a) : DecQ |a| := by
  rcases abs_cases a with ⟨h, _⟩ | ⟨h, _⟩
  · rw [h]
    exact ha
  · rw [h]
    exact DecQ_neg ha

theorem DecQ_parseUnsigned (t : List Char) : DecQ (parseUnsigned t) := by
  unfold parseUnsigned
  dsimp only
  split
  · rename_i frac heq
    have h : (digitsVal (frac.takeWhile isDigitCh) : ℚ) /
        10 ^ (frac.takeWhile isDigitCh).length =
        ((digitsVal (frac.takeWhile isDigitCh) : ℤ) : ℚ) /
          10 ^ (frac.takeWhile isDigitCh).length := by
      push_cast
      ring
    exact DecQ_add (DecQ_natCast _) (h ▸ DecQ_div_pow _ _)
  · exact DecQ_natCast _

theorem DecQ_parseNum (t : List Char) : DecQ (parseNum t) := by
  unfold parseNum
  split
  · exact DecQ_neg (DecQ_parseUnsigned _)
  · exact DecQ_parseUnsigned _

theorem scanNums_DecQ (s : List Char) : ∀ q ∈ scanNums s, DecQ q := by
  intro q hq
  unfold scanNums at hq
  rcases List.mem_map.mp hq with ⟨tok, _, rfl⟩
  exact DecQ_parseNum tok

/-! ### C2 development, stage 6: the numeric content of each switch branch -/

theorem numsOf_cons_num (q : ℚ) (r : List JNum) :
    numsOf (JNum.num q :: r) = q :: numsOf r := by
  simp [numsOf]

theorem numsOf_cons_nan (r : List JNum) :
    numsOf (JNum.nan :: r) = numsOf r := by
  simp [numsOf]

theorem numsOf_cons_undef (r : List JNum) :
    numsOf (JNum.undef :: r) = numsOf r := by
  simp [numsOf]

theorem numsOf_map_num (qs : List ℚ) : numsOf (qs.map JNum.num) = qs := by
  induction qs with
  | nil => rfl
  | cons q r ih => rw [List.map_cons, numsOf_cons_num, ih]

theorem numsOf_append (a b : List JNum) :
    numsOf (a ++ b) = numsOf a ++ numsOf b := by
  simp [numsOf]

theorem numsOf_defaultPairs (sx sy tx ty : ℚ) (args : List ℚ) :
    numsOf (defaultPairs sx sy tx ty args) =
      mapPairs (fun x => x * sx + tx) (fun y => y * sy + ty) args := by
  induction args using defaultPairs.induct sx sy tx ty with
  | case1 => rfl
  | case2 x => simp [defaultPairs, mapPairs, numsOf]
  | case3 x y rest ih =>
      rw [defaultPairs, numsOf_cons_num, numsOf_cons_num, ih]
      rfl

theorem mapPairs_ne_nil (f g : ℚ → ℚ) (l : List ℚ) (h : l ≠ []) :
    mapPairs f g l ≠ [] := by
  cases l with
  | nil => exact absurd rfl h
  | cons x r =>
      cases r with
      | nil => simp [mapPairs]
      | cons y r2 => simp [mapPairs]

theorem mem_mapPairs (f g : ℚ → ℚ) (l : List ℚ) :
    ∀ z ∈ mapPairs f g l, (∃ x ∈ l, z = f x) ∨ (∃ y ∈ l, z = g y) := by
  induction l using mapPairs.induct f g with
  | case1 => simp [mapPairs]
  | case2 x =>
      intro z hz
      simp only [mapPairs, List.mem_singleton] at hz
      exact Or.inl ⟨x, by simp, hz⟩
  | case3 x y rest ih =>
      intro z hz
      simp only [mapPairs, List.mem_cons] at hz
      rcases hz with rfl | rfl | hz
      · exact Or.inl ⟨x, by simp, rfl⟩
      · exact Or.inr ⟨y, by simp, rfl⟩
      · rcases ih z hz with ⟨x2, hx2, rfl⟩ | ⟨y2, hy2, rfl⟩
        · exact Or.inl ⟨x2, by simp [hx2], rfl⟩
        · exact Or.inr ⟨y2, by simp [hy2], rfl⟩

theorem mapPairs_mapPairs (f2 g2 f1 g1 : ℚ → ℚ) (l : List ℚ) :
    mapPairs f2 g2 (mapPairs f1 g1 l) =
      mapPairs (fun x => f2 (f1 x)) (fun y => g2 (g1 y)) l := by
  induction l using mapPairs.induct f1 g1 with
  | case1 => rfl
  | case2 x => simp [mapPairs]
  | case3 x y rest ih => simp [mapPairs, ih]

theorem mapPairs_id (f g : ℚ → ℚ) (hf : ∀ x, f x = x) (hg : ∀ y, g y = y)
    (l : List ℚ) : mapPairs f g l = l := by
  induction l using mapPairs.induct f g with
  | case1 => rfl
  | case2 x => simp [mapPairs, hf]
  | case3 x y rest ih => simp [mapPairs, hf, hg, ih]

theorem mapWithIdx_cons (f : ℕ → ℚ → ℚ) (i : ℕ) (x : ℚ) (rest : List ℚ) :
    mapWithIdx f i (x :: rest) = f i x :: mapWithIdx f (i + 1) rest := rfl

theorem mapWithIdx_period (f : ℕ → ℚ → ℚ)
    (hf : ∀ i x, f (i + 7) x = f i x) (l : List ℚ) :
    ∀ i, mapWithIdx f (i + 7) l = mapWithIdx f i l := by
  induction l with
  | nil => intro i; rfl
  | cons x rest ih =>
      intro i
      rw [mapWithIdx_cons, mapWithIdx_cons, hf,
        show i + 7 + 1 = (i + 1) + 7 from by omega, ih (i + 1)]

theorem mapWithIdx_comp (f g : ℕ → ℚ → ℚ) (l : List ℚ) :
    ∀ i, mapWithIdx f i (mapWithIdx g i l) =
      mapWithIdx (fun j x => f j (g j x)) i l := by
  induction l with
  | nil => intro i; rfl
  | cons x rest ih =>
      intro i
      rw [mapWithIdx_cons, mapWithIdx_cons, mapWithIdx_cons, ih (i + 1)]

theorem mapWithIdx_id (f : ℕ → ℚ → ℚ) (hf : ∀ i x, f i x = x)
    (l : List ℚ) : ∀ i, mapWithIdx f i l = l := by
  induction l with
  | nil => intro i; rfl
  | cons x rest ih =>
      intro i
      rw [mapWithIdx_cons, hf, ih (i + 1)]

theorem mem_mapWithIdx (f : ℕ → ℚ → ℚ) (l : List ℚ) :
    ∀ i z, z ∈ mapWithIdx f i l → ∃ j x, x ∈ l ∧ z = f j x := by
  induction l with
  | nil => intro i z hz; simp [mapWithIdx] at hz
  | cons x rest ih =>
      intro i z hz
      rw [mapWithIdx_cons] at hz
      rcases List.mem_cons.mp hz with rfl | hz
      · exact ⟨i, x, by simp, rfl⟩
      · rcases ih (i + 1) z hz with ⟨j, x2, hx2, rfl⟩
        exact ⟨j, x2, by simp [hx2], rfl⟩

theorem mapWithIdx_ne_nil (f : ℕ → ℚ → ℚ) (i : ℕ) (l : List ℚ)
    (h : l ≠ []) : mapWithIdx f i l ≠ [] := by
  cases l with
  | nil => exact absurd rfl h
  | cons x r => simp [mapWithIdx_cons]

theorem arcPosMap_period (sx sy tx ty : ℚ) :
    ∀ i x, arcPosMap sx sy tx ty (i + 7) x = arcPosMap sx sy tx ty i x := by
  intro i x
  unfold arcPosMap
  rw [Nat.add_mod_right]

theorem numsOf_arcGroups (sx sy tx ty : ℚ) (l : List ℚ) :
    numsOf (arcGroups sx sy tx ty l) =
      mapWithIdx (arcPosMap sx sy tx ty) 0 l := by
  induction l using arcGroups.induct sx sy tx ty with
  | case1 => simp [arcGroups, numsOf, mapWithIdx]
  | case2 x rest ih =>
      rcases rest with _ | ⟨r1, _ | ⟨r2, _ | ⟨r3, _ | ⟨r4, _ |
        ⟨r5, _ | ⟨r6, rest7⟩⟩⟩⟩⟩⟩ <;>
        simp only [List.drop_nil, List.drop_succ_cons, List.drop_zero] at ih
      · rw [arcGroups]
        simp [arcGroups, jget, jmulAbs, jscale, numsOf, mapWithIdx,
          arcPosMap]
      · rw [arcGroups]
        simp [arcGroups, jget, jmulAbs, jscale, numsOf, mapWithIdx,
          arcPosMap]
      · rw [arcGroups]
        simp [arcGroups, jget, jmulAbs, jscale, numsOf, mapWithIdx,
          arcPosMap]
      · rw [arcGroups]
        simp [arcGroups, jget, jmulAbs, jscale, numsOf, mapWithIdx,
          arcPosMap]
      · rw [arcGroups]
        simp [arcGroups, jget, jmulAbs, jscale, numsOf, mapWithIdx,
          arcPosMap]
      · rw [arcGroups]
        simp [arcGroups, jget, jmulAbs, jscale, numsOf, mapWithIdx,
          arcPosMap]
      · rw [arcGroups]
        simp only [List.drop_succ_cons, List.drop_zero]
        simp only [jget, List.get?_cons_succ, List.get?_cons_zero, jmulAbs,
          jscale]
        rw [numsOf_cons_num, numsOf_cons_num, numsOf_cons_num,
          numsOf_cons_num, numsOf_cons_num, numsOf_cons_num,
          numsOf_cons_num, ih]
        simp only [mapWithIdx_cons]
        rw [show (6 : ℕ) + 1 = 0 + 7 from rfl,
          mapWithIdx_period _ (arcPosMap_period sx sy tx ty) rest7 0]
        simp [arcPosMap]

theorem segNewArgs_Hb (c : Char) (args : List ℚ) (sx sy tx ty : ℚ)
    (h : toUpperCh c = 'H') :
    segNewArgs c args sx sy tx ty =
      args.map (fun x => JNum.num (x * sx + (if isLowerCh c then 0 else tx))) := by
  unfold segNewArgs
  dsimp only
  rw [h]
  rfl

theorem segNewArgs_Vb (c : Char) (args : List ℚ) (sx sy tx ty : ℚ)
    (h : toUpperCh c = 'V') :
    segNewArgs c args sx sy tx ty =
      args.map (fun y => JNum.num (y * sy + (if isLowerCh c then 0 else ty))) := by
  unfold segNewArgs
  dsimp only
  rw [h]
  rfl

theorem segNewArgs_Ab (c : Char) (args : List ℚ) (sx sy tx ty : ℚ)
    (h : toUpperCh c = 'A') :
    segNewArgs c args sx sy tx ty =
      arcGroups sx sy (if isLowerCh c then 0 else tx)
        (if isLowerCh c then 0 else ty) args := by
  unfold segNewArgs
  dsimp only
  rw [h]
  rfl

theorem segNewArgs_Db (c : Char) (args : List ℚ) (sx sy tx ty : ℚ)
    (h1 : toUpperCh c ≠ 'H') (h2 : toUpperCh c ≠ 'V')
    (h3 : toUpperCh c ≠ 'A') :
    segNewArgs c args sx sy tx ty =
      defaultPairs sx sy (if isLowerCh c then 0 else tx)
        (if isLowerCh c then 0 else ty) args := by
  unfold segNewArgs
  dsimp only
  split
  · rename_i heq
    exact absurd heq h1
  · rename_i heq
    exact absurd heq h2
  · rename_i heq
    exact absurd heq h3
  · rfl

theorem tSegNums_eq (c : Char) (args : List ℚ) (sx sy tx ty : ℚ) :
    tSegNums c args sx sy tx ty =
      (if toUpperCh c = 'H' then
        args.map (fun x => x * sx + (if isLowerCh c then 0 else tx))
      else if toUpperCh c = 'V' then
        args.map (fun y => y * sy + (if isLowerCh c then 0 else ty))
      else if toUpperCh c = 'A' then
        mapWithIdx (arcPosMap sx sy (if isLowerCh c then 0 else tx)
          (if isLowerCh c then 0 else ty)) 0 args
      else
        mapPairs (fun x => x * sx + (if isLowerCh c then 0 else tx))
          (fun y => y * sy + (if isLowerCh c then 0 else ty)) args) := by
  unfold tSegNums
  by_cases h1 : toUpperCh c = 'H'
  · rw [if_pos h1, segNewArgs_Hb c args sx sy tx ty h1]
    rw [show (fun x => JNum.num (x * sx + (if isLowerCh c then 0 else tx))) =
      (JNum.num ∘ fun x => x * sx + (if isLowerCh c then 0 else tx))
      from rfl]
    rw [← List.map_map, numsOf_map_num]
  · rw [if_neg h1]
    by_cases h2 : toUpperCh c = 'V'
    · rw [if_pos h2, segNewArgs_Vb c args sx sy tx ty h2]
      rw [show (fun y => JNum.num (y * sy + (if isLowerCh c then 0 else ty)))
        = (JNum.num ∘ fun y => y * sy + (if isLowerCh c then 0 else ty))
        from rfl]
      rw [← List.map_map, numsOf_map_num]
    · rw [if_neg h2]
      by_cases h3 : toUpperCh c = 'A'
      · rw [if_pos h3, segNewArgs_Ab c args sx sy tx ty h3,
          numsOf_arcGroups]
      · rw [if_neg h3, segNewArgs_Db c args sx sy tx ty h1 h2 h3,
          numsOf_defaultPairs]

theorem tSegNums_nil (c : Char) (sx sy tx ty : ℚ) :
    tSegNums c [] sx sy tx ty = [] := by
  rw [tSegNums_eq]
  split_ifs <;> simp [mapWithIdx, mapPairs]

theorem tSegNums_ne_nil (c : Char) (args : List ℚ) (sx sy tx ty : ℚ)
    (h : args ≠ []) : tSegNums c args sx sy tx ty ≠ [] := by
  rw [tSegNums_eq]
  by_cases h1 : toUpperCh c = 'H'
  · rw [if_pos h1]
    simpa using h
  · rw [if_neg h1]
    by_cases h2 : toUpperCh c = 'V'
    · rw [if_pos h2]
      simpa using h
    · rw [if_neg h2]
      by_cases h3 : toUpperCh c = 'A'
      · rw [if_pos h3]
        exact mapWithIdx_ne_nil _ _ _ h
      · rw [if_neg h3]
        exact mapPairs_ne_nil _ _ _ h

theorem arcPosMap_DecQ (sx sy tx ty : ℚ) (hsx : DecQ sx) (hsy : DecQ sy)
    (htx : DecQ tx) (hty : DecQ ty) (i : ℕ) (x : ℚ) (hx : DecQ x) :
    DecQ (arcPosMap sx sy tx ty i x) := by
  unfold arcPosMap
  split_ifs
  · exact DecQ_mul hx (DecQ_abs hsx)
  · exact DecQ_mul hx (DecQ_abs hsy)
  · exact DecQ_add (DecQ_mul hx hsx) htx
  · exact DecQ_add (DecQ_mul hx hsy) hty
  · exact hx

theorem tSegNums_DecQ (c : Char) (args : List ℚ) (sx sy tx ty : ℚ)
    (hargs : ∀ a ∈ args, DecQ a) (hsx : DecQ sx) (hsy : DecQ sy)
    (htx : DecQ tx) (hty : DecQ ty) :
    ∀ q ∈ tSegNums c args sx sy tx ty, DecQ q := by
  have htrx : DecQ (if isLowerCh c then 0 else tx) := by
    split_ifs
    · exact DecQ_natCast 0
    · exact htx
  have htry : DecQ (if isLowerCh c then 0 else ty) := by
    split_ifs
    · exact DecQ_natCast 0
    · exact hty
  rw [tSegNums_eq]
  by_cases h1 : toUpperCh c = 'H'
  · rw [if_pos h1]
    intro q hq
    rcases List.mem_map.mp hq with ⟨x, hx, rfl⟩
    exact DecQ_add (DecQ_mul (hargs x hx) hsx) htrx
  · rw [if_neg h1]
    by_cases h2 : toUpperCh c = 'V'
    · rw [if_pos h2]
      intro q hq
      rcases List.mem_map.mp hq with ⟨y, hy, rfl⟩
      exact DecQ_add (DecQ_mul (hargs y hy) hsy) htry
    · rw [if_neg h2]
      by_cases h3 : toUpperCh c = 'A'
      · rw [if_pos h3]
        intro q hq
        rcases mem_mapWithIdx _ _ 0 q hq with ⟨j, x, hx, rfl⟩
        exact arcPosMap_DecQ sx sy _ _ hsx hsy htrx htry j x (hargs x hx)
      · rw [if_neg h3]
        intro q hq
        rcases mem_mapPairs _ _ _ q hq with ⟨x, hx, rfl⟩ | ⟨y, hy, rfl⟩
        · exact DecQ_add (DecQ_mul (hargs x hx) hsx) htrx
        · exact DecQ_add (DecQ_mul (hargs y hy) hsy) htry

theorem defaultPairs_shape (sx sy tx ty : ℚ) (args : List ℚ) :
    ∃ junk, defaultPairs sx sy tx ty args =
      (mapPairs (fun x => x * sx + tx) (fun y => y * sy + ty) args).map
        JNum.num ++ junk ∧
      ∀ x ∈ junk, x = JNum.nan ∨ x = JNum.undef := by
  induction args using defaultPairs.induct sx sy tx ty with
  | case1 => exact ⟨[], rfl, by simp⟩
  | case2 x => exact ⟨[JNum.nan], rfl, by simp⟩
  | case3 x y rest ih =>
      obtain ⟨junk, hj, hp⟩ := ih
      refine ⟨junk, ?_, hp⟩
      rw [defaultPairs, hj]
      rfl

theorem arcGroups_shape (sx sy tx ty : ℚ) (l : List ℚ) :
    ∃ junk, arcGroups sx sy tx ty l =
      (mapWithIdx (arcPosMap sx sy tx ty) 0 l).map JNum.num ++ junk ∧
      ∀ x ∈ junk, x = JNum.nan ∨ x = JNum.undef := by
  induction l using arcGroups.induct sx sy tx ty with
  | case1 => exact ⟨[], by simp [arcGroups, mapWithIdx], by simp⟩
  | case2 x rest ih =>
      rcases rest with _ | ⟨r1, _ | ⟨r2, _ | ⟨r3, _ | ⟨r4, _ |
        ⟨r5, _ | ⟨r6, rest7⟩⟩⟩⟩⟩⟩ <;>
        simp only [List.drop_nil, List.drop_succ_cons, List.drop_zero] at ih
      · refine ⟨[JNum.nan, JNum.undef, JNum.undef, JNum.undef, JNum.nan,
          JNum.nan], ?_, by simp⟩
        rw [arcGroups]
        simp [arcGroups, jget, jmulAbs, jscale, mapWithIdx, arcPosMap]
      · refine ⟨[JNum.undef, JNum.undef, JNum.undef, JNum.nan,
          JNum.nan], ?_, by simp⟩
        rw [arcGroups]
        simp [arcGroups, jget, jmulAbs, jscale, mapWithIdx, arcPosMap]
      · refine ⟨[JNum.undef, JNum.undef, JNum.nan, JNum.nan], ?_, by simp⟩
        rw [arcGroups]
        simp [arcGroups, jget, jmulAbs, jscale, mapWithIdx, arcPosMap]
      · refine ⟨[JNum.undef, JNum.nan, JNum.nan], ?_, by simp⟩
        rw [arcGroups]
        simp [arcGroups, jget, jmulAbs, jscale, mapWithIdx, arcPosMap]
      · refine ⟨[JNum.nan, JNum.nan], ?_, by simp⟩
        rw [arcGroups]
        simp [arcGroups, jget, jmulAbs, jscale, mapWithIdx, arcPosMap]
      · refine ⟨[JNum.nan], ?_, by simp⟩
        rw [arcGroups]
        simp [arcGroups, jget, jmulAbs, jscale, mapWithIdx, arcPosMap]
      · obtain ⟨junk, hj, hp⟩ := ih
        refine ⟨junk, ?_, hp⟩
        rw [arcGroups]
        simp only [List.drop_succ_cons, List.drop_zero]
        simp only [jget, List.get?_cons_succ, List.get?_cons_zero, jmulAbs,
          jscale]
        rw [hj]
        simp only [mapWithIdx_cons]
        rw [show (6 : ℕ) + 1 = 0 + 7 from rfl,
          mapWithIdx_period _ (arcPosMap_period sx sy tx ty) rest7 0]
        simp [arcPosMap]

theorem segNewArgs_shape (c : Char) (args : List ℚ) (sx sy tx ty : ℚ) :
    ∃ junk, segNewArgs c args sx sy tx ty =
      (tSegNums c args sx sy tx ty).map JNum.num ++ junk ∧
      ∀ x ∈ junk, x = JNum.nan ∨ x = JNum.undef := by
  rw [tSegNums_eq]
  by_cases h1 : toUpperCh c = 'H'
  · rw [if_pos h1, segNewArgs_Hb c args sx sy tx ty h1]
    refine ⟨[], ?_, by simp⟩
    rw [List.map_map]
    simp
  · rw [if_neg h1]
    by_cases h2 : toUpperCh c = 'V'
    · rw [if_pos h2, segNewArgs_Vb c args sx sy tx ty h2]
      refine ⟨[], ?_, by simp⟩
      rw [List.map_map]
      simp
    · rw [if_neg h2]
      by_cases h3 : toUpperCh c = 'A'
      · rw [if_pos h3, segNewArgs_Ab c args sx sy tx ty h3]
        exact arcGroups_shape _ _ _ _ args
      · rw [if_neg h3, segNewArgs_Db c args sx sy tx ty h1 h2 h3]
        exact defaultPairs_shape _ _ _ _ args

/-! ### C2 development, stage 7: re-parsing the replacement text -/

theorem dropWhile_append_all {p : Char → Bool} (a b : List Char)
    (h : ∀ c ∈ a, p c = true) :
    (a ++ b).dropWhile p = b.dropWhile p := by
  induction a with
  | nil => rfl
  | cons c a2 ih =>
      rw [List.cons_append, List.dropWhile_cons, if_pos (h c (by simp))]
      exact ih (fun x hx => h x (by simp [hx]))

theorem takeWhile_alphaHead {v : List Char} (hv : alphaHead v) :
    v.takeWhile notAlpha = [] := by
  cases v with
  | nil => rfl
  | cons c r =>
      rw [List.takeWhile_cons, if_neg]
      have := hv c (by simp)
      simp [notAlpha, this]

theorem dropWhile_alphaHead {v : List Char} (hv : alphaHead v) :
    v.dropWhile notAlpha = v := by
  cases v with
  | nil => rfl
  | cons c r =>
      rw [List.dropWhile_cons, if_neg]
      have := hv c (by simp)
      simp [notAlpha, this]

theorem segsFrom_nonalpha_append (a s : List Char)
    (h : ∀ c ∈ a, isAlphaCh c = false) :
    segsFrom (a ++ s) = segsFrom s := by
  induction a with
  | nil => rfl
  | cons c a2 ih =>
      rw [List.cons_append, segsFrom, if_neg (by simp [h c (by simp)])]
      exact ih (fun x hx => h x (by simp [hx]))

theorem decStr_nonalpha (q : ℚ) : ∀ c ∈ decStr q, isAlphaCh c = false := by
  have hnn : ∀ c ∈ decStrNN (if q < 0 then -q else q), isAlphaCh c = false := by
    intro c hc
    rcases decStrNN_shape (if q < 0 then -q else q) with ⟨_, hd⟩ |
      ⟨d1, d2, heq, _, _, hd1, hd2⟩
    · exact (digit_not_special (hd c hc)).1
    · rw [heq] at hc
      rcases List.mem_append.mp hc with h1 | h2
      · exact (digit_not_special (hd1 c h1)).1
      · rcases List.mem_cons.mp h2 with rfl | h3
        · decide
        · exact (digit_not_special (hd2 c h3)).1
  intro c hc
  unfold decStr at hc
  split_ifs at hc with hq
  · rcases List.mem_cons.mp hc with rfl | h2
    · decide
    · have := hnn c (by rw [if_pos hq]; exact h2)
      exact this
  · exact hnn c (by rw [if_neg hq]; exact hc)

theorem sepJoin_nums_nonalpha (qs : List ℚ) :
    ∀ c ∈ sepJoin (qs.map JNum.num), isAlphaCh c = false := by
  induction qs with
  | nil => simp [sepJoin_nil]
  | cons q r ih =>
      intro c hc
      rw [List.map_cons, sepJoin_cons] at hc
      rcases List.mem_cons.mp hc with rfl | h2
      · decide
      · rcases List.mem_append.mp h2 with h3 | h4
        · exact decStr_nonalpha q c h3
        · exact ih c h4

theorem sepJoin_junk_chars (junk : List JNum)
    (h : ∀ x ∈ junk, x = JNum.nan ∨ x = JNum.undef) :
    ∀ c ∈ sepJoin junk, c = ' ' ∨ c = 'N' ∨ c = 'a' := by
  induction junk with
  | nil => simp [sepJoin_nil]
  | cons j r ih =>
      intro c hc
      rw [sepJoin_cons] at hc
      rcases List.mem_cons.mp hc with rfl | h2
      · exact Or.inl rfl
      · rcases List.mem_append.mp h2 with h3 | h4
        · rcases h j (by simp) with rfl | rfl
          · rw [show serJNum JNum.nan = ['N', 'a', 'N'] from rfl] at h3
            rcases List.mem_cons.mp h3 with rfl | h5
            · exact Or.inr (Or.inl rfl)
            · rcases List.mem_cons.mp h5 with rfl | h6
              · exact Or.inr (Or.inr rfl)
              · rcases List.mem_cons.mp h6 with rfl | h7
                · exact Or.inr (Or.inl rfl)
                · simp at h7
          · rw [show serJNum JNum.undef = [] from rfl] at h3
            simp at h3
        · exact ih (fun x hx => h x (by simp [hx])) c h4

theorem segsFrom_junk (v : List Char) (hv : alphaHead v) :
    ∀ (n : ℕ) (u : List Char), u.length ≤ n →
      (∀ c ∈ u, c = ' ' ∨ c = 'N' ∨ c = 'a') →
      (∀ c ∈ (u ++ v).takeWhile notAlpha, isWsCh c = true) ∧
      ∃ J, segsFrom ((u ++ v).dropWhile notAlpha) = J ++ segsFrom v ∧
        ∀ s ∈ J, ((s : Char × List Char).1 = 'N' ∨
            (s : Char × List Char).1 = 'a') ∧
          ∀ c ∈ (s : Char × List Char).2, isWsCh c = true := by
  intro n
  induction n with
  | zero =>
      intro u hu hchars
      have hnil : u = [] := List.eq_nil_of_length_eq_zero (by omega)
      subst hnil
      rw [List.nil_append, takeWhile_alphaHead hv, dropWhile_alphaHead hv]
      exact ⟨by simp, [], by simp, by simp⟩
  | succ m ih =>
      intro u hu hchars
      cases u with
      | nil =>
          rw [List.nil_append, takeWhile_alphaHead hv,
            dropWhile_alphaHead hv]
          exact ⟨by simp, [], by simp, by simp⟩
      | cons c u2 =>
          have hlen : u2.length ≤ m := by
            simp only [List.length_cons] at hu
            omega
          have hch2 : ∀ x ∈ u2, x = ' ' ∨ x = 'N' ∨ x = 'a' :=
            fun x hx => hchars x (by simp [hx])
          obtain ⟨ihA, J2, ihB, ihC⟩ := ih u2 hlen hch2
          rcases hchars c (by simp) with rfl | rfl | rfl
          · rw [List.cons_append, List.takeWhile_cons, if_pos (by decide),
              List.dropWhile_cons, if_pos (by decide)]
            refine ⟨?_, J2, ihB, ihC⟩
            intro x hx
            rcases List.mem_cons.mp hx with rfl | h2
            · decide
            · exact ihA x h2
          · rw [List.cons_append, List.takeWhile_cons,
              if_neg (by decide), List.dropWhile_cons, if_neg (by decide)]
            refine ⟨by simp, ('N', (u2 ++ v).takeWhile notAlpha) :: J2,
              ?_, ?_⟩
            · rw [segsFrom, if_pos (by decide), ihB]
              rfl
            · intro s hs
              rcases List.mem_cons.mp hs with rfl | h2
              · exact ⟨Or.inl rfl, ihA⟩
              · exact ihC s h2
          · rw [List.cons_append, List.takeWhile_cons,
              if_neg (by decide), List.dropWhile_cons, if_neg (by decide)]
            refine ⟨by simp, ('a', (u2 ++ v).takeWhile notAlpha) :: J2,
              ?_, ?_⟩
            · rw [segsFrom, if_pos (by decide), ihB]
              rfl
            · intro s hs
              rcases List.mem_cons.mp hs with rfl | h2
              · exact ⟨Or.inr rfl, ihA⟩
              · exact ihC s h2

theorem transformSeg_ne_nil (c : Char) (argsStr : List Char)
    (sx sy tx ty : ℚ) : transformSeg c argsStr sx sy tx ty ≠ [] := by
  unfold transformSeg
  dsimp only
  by_cases h1 : (scanNums (trimWs argsStr)).length = 0 ∧ toUpperCh c ≠ 'Z'
  · rw [if_pos h1]
    simp
  · rw [if_neg h1]
    by_cases h2 : toUpperCh c = 'Z'
    · rw [if_pos h2]
      simp
    · rw [if_neg h2]
      simp

theorem transformSeg_head (c : Char) (argsStr : List Char) (sx sy tx ty : ℚ) :
    ∀ h ∈ (transformSeg c argsStr sx sy tx ty).head?, h = c ∨ h = 'Z' := by
  unfold transformSeg
  dsimp only
  intro h hh
  by_cases h1 : (scanNums (trimWs argsStr)).length = 0 ∧ toUpperCh c ≠ 'Z'
  · rw [if_pos h1] at hh
    simp only [List.head?_cons, Option.mem_def, Option.some_inj] at hh
    exact Or.inl hh.symm
  · rw [if_neg h1] at hh
    by_cases h2 : toUpperCh c = 'Z'
    · rw [if_pos h2] at hh
      simp only [List.head?_cons, Option.mem_def, Option.some_inj] at hh
      exact Or.inr hh.symm
    · rw [if_neg h2] at hh
      simp only [List.head?_cons, Option.mem_def, Option.some_inj] at hh
      exact Or.inl hh.symm

theorem flatMap_chunks_alphaHead (S : List (Char × List Char))
    (halpha : ∀ s ∈ S, isAlphaCh (s : Char × List Char).1 = true)
    (sx sy tx ty : ℚ) :
    alphaHead (S.flatMap
      (fun s => transformSeg (s : Char × List Char).1
        (s : Char × List Char).2 sx sy tx ty)) := by
  cases S with
  | nil =>
      intro c hc
      simp at hc
  | cons s S2 =>
      intro ch hch
      rw [List.flatMap_cons] at hch
      cases hchunk : transformSeg s.1 s.2 sx sy tx ty with
      | nil => exact absurd hchunk (transformSeg_ne_nil _ _ _ _ _ _)
      | cons a t =>
          rw [hchunk, List.cons_append, List.head?_cons] at hch
          simp only [Option.mem_def, Option.some_inj] at hch
          subst hch
          have := transformSeg_head s.1 s.2 sx sy tx ty a
            (by rw [hchunk]; rfl)
          rcases this with rfl | rfl
          · exact halpha s (by simp)
          · decide

theorem scanNums_nil : scanNums [] = [] := by
  simp [scanNums, scanTokens]

theorem scanNums_ws (W : List Char) (hW : ∀ c ∈ W, isWsCh c = true) :
    scanNums W = [] := by
  unfold scanNums
  rw [scanTokens_ws_nil W hW]
  rfl

theorem scanNums_head_args (qs : List ℚ) (hqs : ∀ q ∈ qs, DecQ q)
    (W : List Char) (hW : ∀ c ∈ W, isWsCh c = true) :
    scanNums (sepJoin (qs.map JNum.num) ++ W) = qs := by
  have hmem : ∀ q, JNum.num q ∈ qs.map JNum.num → DecQ q := by
    intro q hq
    rcases List.mem_map.mp hq with ⟨x, hx, hinj⟩
    have : x = q := by
      injection hinj
    subst this
    exact hqs x hx
  rw [scanNums_sepJoin_append _ hmem W (scanBoundary_of_ws hW),
    numsOf_map_num, scanNums_ws W hW, List.append_nil]

theorem segsFrom_value_chunk (c : Char) (qs : List ℚ) (junk : List JNum)
    (hqs : qs ≠ []) (hqsD : ∀ q ∈ qs, DecQ q)
    (hjunk : ∀ x ∈ junk, x = JNum.nan ∨ x = JNum.undef)
    (rest_out : List Char) (hrest : alphaHead rest_out)
    (hc : isAlphaCh c = true) :
    ∃ args0 J,
      segsFrom (c :: ' ' :: (jjoin (qs.map JNum.num ++ junk) ++ rest_out)) =
        (c, args0) :: (J ++ segsFrom rest_out) ∧
      scanNums args0 = qs ∧
      ∀ s ∈ J, isAlphaCh (s : Char × List Char).1 = true ∧
        toUpperCh (s : Char × List Char).1 ≠ 'Z' ∧
        scanNums (s : Char × List Char).2 = [] := by
  have hne : qs.map JNum.num ++ junk ≠ [] := by
    cases qs with
    | nil => exact absurd rfl hqs
    | cons q r => simp
  have hX : ' ' :: (jjoin (qs.map JNum.num ++ junk) ++ rest_out) =
      (sepJoin (qs.map JNum.num) ++ (sepJoin junk ++ rest_out)) := by
    rw [show (' ' :: (jjoin (qs.map JNum.num ++ junk) ++ rest_out)) =
      ((' ' :: jjoin (qs.map JNum.num ++ junk)) ++ rest_out) from rfl]
    rw [space_jjoin _ hne, sepJoin_append, List.append_assoc]
  have hnalpha : ∀ x ∈ sepJoin (qs.map JNum.num), notAlpha x = true := by
    intro x hx
    have := sepJoin_nums_nonalpha qs x hx
    simp [notAlpha, this]
  obtain ⟨hWS, J0, hJ0eq, hJ0⟩ :=
    segsFrom_junk rest_out hrest (sepJoin junk).length (sepJoin junk)
      le_rfl (sepJoin_junk_chars junk hjunk)
  refine ⟨sepJoin (qs.map JNum.num) ++
    (sepJoin junk ++ rest_out).takeWhile notAlpha, J0, ?_, ?_, ?_⟩
  · rw [segsFrom, if_pos hc, hX,
      takeWhile_append_all _ _ hnalpha,
      dropWhile_append_all _ _ hnalpha, hJ0eq]
  · exact scanNums_head_args qs hqsD _ hWS
  · intro s hs
    obtain ⟨hs1, hs2⟩ := hJ0 s hs
    rcases hs1 with h | h
    · exact ⟨by rw [h]; decide, by rw [h]; decide, scanNums_ws _ hs2⟩
    · exact ⟨by rw [h]; decide, by rw [h]; decide, scanNums_ws _ hs2⟩

theorem outSegs_chunks (sx sy tx ty : ℚ) (hsx : DecQ sx) (hsy : DecQ sy)
    (htx : DecQ tx) (hty : DecQ ty) :
    ∀ S : List (Char × List Char),
      (∀ s ∈ S, isAlphaCh (s : Char × List Char).1 = true) →
      OutSegs sx sy tx ty
        (S.map (fun s => ((s : Char × List Char).1,
          scanNums (s : Char × List Char).2)))
        ((segsFrom (S.flatMap
          (fun s => transformSeg (s : Char × List Char).1
            (s : Char × List Char).2 sx sy tx ty))).map
          (fun s => ((s : Char × List Char).1,
            scanNums (s : Char × List Char).2))) := by
  intro S
  induction S with
  | nil =>
      intro _
      have h0 : segsFrom [] = [] := by rw [segsFrom]
      simp only [List.map_nil, List.flatMap_nil, h0]
      exact OutSegs.nil
  | cons s S2 ih =>
      intro halpha
      obtain ⟨c, astr⟩ := s
      have hc : isAlphaCh c = true := halpha (c, astr) (by simp)
      have halpha2 : ∀ s ∈ S2, isAlphaCh (s : Char × List Char).1 = true :=
        fun s hs => halpha s (by simp [hs])
      have hrest : alphaHead (S2.flatMap
          (fun s => transformSeg (s : Char × List Char).1
            (s : Char × List Char).2 sx sy tx ty)) :=
        flatMap_chunks_alphaHead S2 halpha2 sx sy tx ty
      rw [List.flatMap_cons, List.map_cons]
      dsimp only
      have htrim : scanNums (trimWs astr) = scanNums astr :=
        scanNums_trimWs astr
      by_cases h1 : (scanNums (trimWs astr)).length = 0 ∧ toUpperCh c ≠ 'Z'
      · have hchunk : transformSeg c astr sx sy tx ty = [c] := by
          unfold transformSeg
          dsimp only
          rw [if_pos h1]
        rw [hchunk]
        have hempty : scanNums astr = [] := by
          rw [← htrim]
          exact List.eq_nil_of_length_eq_zero h1.1
        rw [show ([c] ++ S2.flatMap
            (fun s => transformSeg (s : Char × List Char).1
              (s : Char × List Char).2 sx sy tx ty)) =
          (c :: S2.flatMap
            (fun s => transformSeg (s : Char × List Char).1
              (s : Char × List Char).2 sx sy tx ty)) from rfl]
        rw [segsFrom, if_pos hc, takeWhile_alphaHead hrest,
          dropWhile_alphaHead hrest, hempty, List.map_cons]
        dsimp only
        rw [scanNums_nil]
        exact OutSegs.empt c [] _ _ rfl h1.2 (ih halpha2)
      · by_cases h2 : toUpperCh c = 'Z'
        · have hchunk : transformSeg c astr sx sy tx ty = ['Z'] := by
            unfold transformSeg
            dsimp only
            rw [if_neg h1, if_pos h2]
          rw [hchunk]
          rw [show (['Z'] ++ S2.flatMap
              (fun s => transformSeg (s : Char × List Char).1
                (s : Char × List Char).2 sx sy tx ty)) =
            ('Z' :: S2.flatMap
              (fun s => transformSeg (s : Char × List Char).1
                (s : Char × List Char).2 sx sy tx ty)) from rfl]
          rw [segsFrom, if_pos (by decide), takeWhile_alphaHead hrest,
            dropWhile_alphaHead hrest, List.map_cons]
          dsimp only
          rw [scanNums_nil]
          exact OutSegs.close c (scanNums astr) _ _ h2 (ih halpha2)
        · have hznot : toUpperCh c ≠ 'Z' := h2
          have hlen : (scanNums (trimWs astr)).length ≠ 0 := by
            intro h0
            exact h1 ⟨h0, hznot⟩
          have hne : scanNums (trimWs astr) ≠ [] := by
            intro h0
            rw [h0] at hlen
            exact hlen rfl
          have hchunk : transformSeg c astr sx sy tx ty =
              c :: ' ' :: jjoin (segNewArgs c (scanNums (trimWs astr))
                sx sy tx ty) := by
            unfold transformSeg
            dsimp only
            rw [if_neg h1, if_neg h2]
          obtain ⟨junk, hshape, hjunkp⟩ :=
            segNewArgs_shape c (scanNums (trimWs astr)) sx sy tx ty
          have hqs_ne : tSegNums c (scanNums (trimWs astr)) sx sy tx ty ≠ [] :=
            tSegNums_ne_nil c _ sx sy tx ty hne
          have hqsD : ∀ q ∈ tSegNums c (scanNums (trimWs astr)) sx sy tx ty,
              DecQ q :=
            tSegNums_DecQ c _ sx sy tx ty (scanNums_DecQ _) hsx hsy htx hty
          obtain ⟨args0, J, hseg, hscan, hJ⟩ :=
            segsFrom_value_chunk c
              (tSegNums c (scanNums (trimWs astr)) sx sy tx ty) junk
              hqs_ne hqsD hjunkp _ hrest hc
          rw [← hshape] at hseg
          rw [hchunk]
          rw [show ((c :: ' ' :: jjoin (segNewArgs c
              (scanNums (trimWs astr)) sx sy tx ty)) ++ S2.flatMap
              (fun s => transformSeg (s : Char × List Char).1
                (s : Char × List Char).2 sx sy tx ty)) =
            (c :: ' ' :: (jjoin (segNewArgs c
              (scanNums (trimWs astr)) sx sy tx ty) ++ S2.flatMap
              (fun s => transformSeg (s : Char × List Char).1
                (s : Char × List Char).2 sx sy tx ty))) from rfl]
          rw [hseg, List.map_cons, List.map_append]
          dsimp only
          rw [hscan]
          have hinput : scanNums astr = scanNums (trimWs astr) := htrim.symm
          rw [← hinput] at hne ⊢
          apply OutSegs.seg c (scanNums astr) _ _
            (J.map (fun s => ((s : Char × List Char).1,
              scanNums (s : Char × List Char).2)))
            hne hznot
          · intro s hs
            rcases List.mem_map.mp hs with ⟨s0, hs0, rfl⟩
            obtain ⟨_, hz, hnil⟩ := hJ s0 hs0
            exact ⟨hz, hnil⟩
          · exact ih halpha2

/-! ### C2 development, stage 8: assembling the round-trip theorems -/

theorem segsFrom_heads_alpha (p : List Char) :
    ∀ s ∈ segsFrom p, isAlphaCh (s : Char × List Char).1 = true := by
  induction p using segsFrom.induct with
  | case1 =>
      intro s hs
      rw [segsFrom] at hs
      simp at hs
  | case2 c cs h ih =>
      intro s hs
      rw [segsFrom, if_pos h] at hs
      rcases List.mem_cons.mp hs with rfl | h2
      · exact h
      · exact ih s h2
  | case3 c cs h ih =>
      intro s hs
      rw [segsFrom, if_neg h] at hs
      exact ih s hs

theorem flatMap_map_general {α β γ : Type} (f : α → β) (g : β → List γ)
    (l : List α) :
    (l.map f).flatMap g = l.flatMap (fun a => g (f a)) := by
  induction l with
  | nil => rfl
  | cons a t ih => simp [ih]

theorem flatMap_congr_general {α β : Type} (f g : α → List β) (l : List α)
    (h : ∀ a ∈ l, f a = g a) : l.flatMap f = l.flatMap g := by
  induction l with
  | nil => rfl
  | cons a t ih =>
      rw [List.flatMap_cons, List.flatMap_cons, h a (by simp),
        ih (fun a ha => h a (by simp [ha]))]

theorem flatMap_nil_general {α β : Type} (f : α → List β) (l : List α)
    (h : ∀ a ∈ l, f a = []) : l.flatMap f = [] := by
  induction l with
  | nil => rfl
  | cons a t ih =>
      rw [List.flatMap_cons, h a (by simp),
        ih (fun a ha => h a (by simp [ha]))]
      rfl

theorem map_eq_self_general (f : ℚ → ℚ) (l : List ℚ) (h : ∀ x, f x = x) :
    l.map f = l := by
  induction l with
  | nil => rfl
  | cons a t ih => rw [List.map_cons, h, ih]

theorem coordinateData_eq_cdOf (p : List Char) :
    coordinateData p = cdOf (segsData p) := by
  unfold coordinateData cdOf segsData
  rw [flatMap_map_general]

theorem outSegs_transform (sx sy tx ty : ℚ) (hsx : DecQ sx) (hsy : DecQ sy)
    (htx : DecQ tx) (hty : DecQ ty) (p : List Char) :
    OutSegs sx sy tx ty (segsData p)
      (segsData (transformPathData p sx sy ⟨tx, ty⟩)) := by
  unfold segsData transformPathData
  by_cases hp : p.isEmpty
  · rw [if_pos hp]
    have hpn : p = [] := by
      cases p with
      | nil => rfl
      | cons a t => simp at hp
    subst hpn
    have h0 : segsFrom [] = [] := by rw [segsFrom]
    rw [h0]
    simp only [List.map_nil]
    exact OutSegs.nil
  · rw [if_neg hp]
    dsimp only
    rw [segsFrom_nonalpha_append _ _ (fun c hc => by
      have := List.mem_takeWhile_imp hc
      simp only [notAlpha, Bool.not_eq_true'] at this
      exact this)]
    exact outSegs_chunks sx sy tx ty hsx hsy htx hty (segsFrom p)
      (segsFrom_heads_alpha p)

theorem OutSegs_cdOf {sx sy tx ty : ℚ}
    {S T : List (Char × List ℚ)} (h : OutSegs sx sy tx ty S T)
    (G : Char → List ℚ → List ℚ) (hG : ∀ c, G c [] = []) :
    (T.flatMap (fun sd => if toUpperCh (sd : Char × List ℚ).1 = 'Z' then []
      else G (sd : Char × List ℚ).1 (sd : Char × List ℚ).2)) =
    (S.flatMap (fun sd => if toUpperCh (sd : Char × List ℚ).1 = 'Z' then []
      else G (sd : Char × List ℚ).1
        (tSegNums (sd : Char × List ℚ).1 (sd : Char × List ℚ).2
          sx sy tx ty))) := by
  induction h with
  | nil => rfl
  | empt c args rest L h1 h2 ih ihh =>
      subst h1
      simp [List.flatMap_cons, ihh, tSegNums_nil, hG, ite_self]
  | close c args rest L h2 ih ihh =>
      simp [List.flatMap_cons, ihh, h2, hG,
        show toUpperCh 'Z' = 'Z' from by decide]
  | seg c args rest L J h1 h2 hJ ih ihh =>
      have hJnil : J.flatMap (fun sd => if toUpperCh
          (sd : Char × List ℚ).1 = 'Z' then []
          else G (sd : Char × List ℚ).1 (sd : Char × List ℚ).2) = [] :=
        flatMap_nil_general _ J (fun a ha => by
          obtain ⟨hz, hnil⟩ := hJ a ha
          simp [hz, hnil, hG])
      simp [List.flatMap_cons, List.flatMap_append, ihh, h2, hJnil]

theorem tSegNums_id (c : Char) (args : List ℚ) :
    tSegNums c args 1 1 0 0 = args := by
  rw [tSegNums_eq]
  simp only [ite_self]
  split_ifs with h1 h2 h3
  · exact map_eq_self_general _ _ (fun x => by ring)
  · exact map_eq_self_general _ _ (fun x => by ring)
  · refine mapWithIdx_id _ ?_ args 0
    intro i x
    unfold arcPosMap
    split_ifs <;> simp [abs_one]
  · exact mapPairs_id _ _ (fun x => by ring) (fun y => by ring) args

theorem arcPosMap_round (tx1 ty1 tx2 ty2 : ℚ) (hx : tx1 * (1/2) + tx2 = 0)
    (hy : ty1 * (1/2) + ty2 = 0) (j : ℕ) (x : ℚ) :
    arcPosMap (1/2) (1/2) tx2 ty2 j (arcPosMap 2 2 tx1 ty1 j x) = x := by
  unfold arcPosMap
  split_ifs
  · rw [abs_of_pos (by norm_num : (0:ℚ) < 2),
      abs_of_pos (by norm_num : (0:ℚ) < 1/2)]
    ring
  · rw [abs_of_pos (by norm_num : (0:ℚ) < 2),
      abs_of_pos (by norm_num : (0:ℚ) < 1/2)]
    ring
  · linear_combination hx
  · linear_combination hy
  · rfl

theorem tSegNums_comp (c : Char) (args : List ℚ) :
    tSegNums c (tSegNums c args 2 2 10 10) (1/2) (1/2) (-5) (-5) = args := by
  have hx : (if isLowerCh c then (0:ℚ) else 10) * (1/2) +
      (if isLowerCh c then (0:ℚ) else -5) = 0 := by
    split_ifs <;> norm_num
  rw [tSegNums_eq, tSegNums_eq]
  by_cases h1 : toUpperCh c = 'H'
  · rw [if_pos h1, if_pos h1, List.map_map]
    refine map_eq_self_general _ _ (fun x => ?_)
    simp only [Function.comp]
    linear_combination hx
  · rw [if_neg h1, if_neg h1]
    by_cases h2 : toUpperCh c = 'V'
    · rw [if_pos h2, if_pos h2, List.map_map]
      refine map_eq_self_general _ _ (fun y => ?_)
      simp only [Function.comp]
      linear_combination hx
    · rw [if_neg h2, if_neg h2]
      by_cases h3 : toUpperCh c = 'A'
      · rw [if_pos h3, if_pos h3, mapWithIdx_comp]
        exact mapWithIdx_id _
          (fun j x => arcPosMap_round _ _ _ _ hx hx j x) args 0
      · rw [if_neg h3, if_neg h3, mapPairs_mapPairs]
        refine mapPairs_id _ _ (fun x => ?_) (fun y => ?_) args
        · linear_combination hx
        · linear_combination hx

theorem DecQ_one : DecQ (1 : ℚ) := by
  have h := DecQ_intCast 1
  simpa using h

theorem DecQ_zero : DecQ (0 : ℚ) := by
  have h := DecQ_intCast 0
  simpa using h

theorem DecQ_two : DecQ (2 : ℚ) := by
  have h := DecQ_intCast 2
  simpa using h

theorem DecQ_ten : DecQ (10 : ℚ) := by
  have h := DecQ_intCast 10
  simpa using h

theorem DecQ_negFive : DecQ (-5 : ℚ) := by
  have h := DecQ_intCast (-5)
  simpa using h

theorem DecQ_half : DecQ (1/2 : ℚ) := by
  have h : (1/2 : ℚ) = ((5 : ℤ) : ℚ) / 10 ^ 1 := by norm_num
  rw [h]
  exact DecQ_div_pow 5 1

/-- Claim C2: for every path-data string `p`, the transform with scale
factors 1 and translation (0,0) leaves every coordinate point encoded in `p`
unchanged, and the transform with factors 2 and translation (10,10) followed
by the transform with factors 1/2 and translation (-5,-5) reconstructs the
original coordinate data of `p` exactly — over exact rational arithmetic,
which subsumes the floating-point-tolerance phrasing (the serialized texts
need not be identical and only the encoded coordinate data is compared). -/
theorem transformPathData_id_and_roundtrip (p : List Char) :
    coordinateData (transformPathData p 1 1 ⟨0, 0⟩) = coordinateData p ∧
    coordinateData (transformPathData (transformPathData p 2 2 ⟨10, 10⟩)
      (1/2) (1/2) ⟨-5, -5⟩) = coordinateData p := by
  constructor
  · have hOS := outSegs_transform 1 1 0 0 DecQ_one DecQ_one DecQ_zero
      DecQ_zero p
    rw [coordinateData_eq_cdOf, coordinateData_eq_cdOf]
    unfold cdOf
    have h := OutSegs_cdOf hOS (fun _ args => args) (fun _ => rfl)
    rw [h]
    exact flatMap_congr_general _ _ _ (fun a _ => by rw [tSegNums_id])
  · have hOS1 := outSegs_transform 2 2 10 10 DecQ_two DecQ_two DecQ_ten
      DecQ_ten p
    have hOS2 := outSegs_transform (1/2) (1/2) (-5) (-5) DecQ_half DecQ_half
      DecQ_negFive DecQ_negFive (transformPathData p 2 2 ⟨10, 10⟩)
    rw [coordinateData_eq_cdOf, coordinateData_eq_cdOf]
    unfold cdOf
    have hpass2 := OutSegs_cdOf hOS2 (fun _ args => args) (fun _ => rfl)
    rw [hpass2]
    have hpass1 := OutSegs_cdOf hOS1
      (fun c args => tSegNums c args (1/2) (1/2) (-5) (-5))
      (fun c => tSegNums_nil c (1/2) (1/2) (-5) (-5))
    rw [hpass1]
    exact flatMap_congr_general _ _ _ (fun a _ => by
      dsimp only
      rw [tSegNums_comp])

end Draw2Diagram
